import Mathlib

/-!
Verification of the indoor-navigation core (room grouping, graph building,
A* search, path enhancement, turn-by-turn directions) of the
morris-indoor-3d-map repository.

The JavaScript sources `src/utils/pathfinding.js` and the directions module of
`src/components/RoutePlanner.jsx` are shallowly embedded below.  Geometric
coordinates are modelled as exact real numbers (the JS code computes with
IEEE doubles; the specification speaks in real-number terms), floors and other
discrete data as rationals and strings.  JS `Map`s are modelled as association
lists in insertion order, JS `Set`s as duplicate-free lists in insertion
order, and the `while` loops of A* are run on explicit fuel that provably
suffices for the situations the theorems are about.
-/

namespace IndoorNav

noncomputable section

/-- Planar point, `[lon, lat]` in the GeoJSON input. -/
abbrev Point : Type := ℝ × ℝ

/-- GeoJSON geometry of a feature, as consumed by the pathfinding module
(`Polygon`, `MultiPolygon` and `LineString` are the only types it looks at). -/
inductive Geom : Type
  | polygon (rings : List (List Point))
  | multiPolygon (polys : List (List (List Point)))
  | lineString (coords : List Point)

/-- Feature properties recognised by the pathfinding module:
`name`/`id`/`room_id` and `floor`/`nivel`/`level`.  A missing `properties`
object is modelled as all fields absent. -/
structure Props : Type where
  name : Option String
  id : Option String
  room_id : Option String
  floor : Option ℚ
  nivel : Option ℚ
  level : Option ℚ

/-- An input geometry feature. -/
structure Feature : Type where
  geometry : Geom
  properties : Props

/-- JS `a || b` for an optional number `a`: `a` is used when present and
truthy (a number is truthy exactly when it is nonzero). -/
def numOr (a : Option ℚ) (b : ℚ) : ℚ :=
  match a with
  | some v => if v = 0 then b else v
  | none => b

/-- JS `a || b` for an optional string `a`: `a` is used when present and
truthy (a string is truthy exactly when it is nonempty). -/
def strOr (a : Option String) (b : String) : String :=
  match a with
  | some s => if s = "" then b else s
  | none => b

/-- Embedding of `getRoomFloor` (pathfinding.js:38-45):
`room.properties?.floor || room.properties?.nivel || room.properties?.level || 0`. -/
def getRoomFloor (room : Feature) : ℚ :=
  numOr room.properties.floor (numOr room.properties.nivel (numOr room.properties.level 0))

/-- Embedding of `getRoomName` (pathfinding.js:48-55):
`room.properties?.name || room.properties?.id || room.properties?.room_id || ""`. -/
def getRoomName (room : Feature) : String :=
  strOr room.properties.name (strOr room.properties.id (strOr room.properties.room_id ""))

/-- Coordinate list selected by `getCentroid` (pathfinding.js:12-21): the
outer ring of a `Polygon`, the outer ring of the first polygon of a
`MultiPolygon`, or the coordinates of a `LineString`. -/
def centroidCoords (g : Geom) : List Point :=
  match g with
  | .polygon rings => rings.headD []
  | .multiPolygon polys => (polys.headD []).headD []
  | .lineString coords => coords

/-- Arithmetic mean of a list of points, with the empty list mapped to the
degenerate centroid `[0, 0]` (pathfinding.js:23-34). -/
def meanPoints (coords : List Point) : Point :=
  ((coords.map Prod.fst).sum / coords.length, (coords.map Prod.snd).sum / coords.length)

/-- Embedding of `getCentroid` (pathfinding.js:12-35). -/
def getCentroid (room : Feature) : Point :=
  let coords := centroidCoords room.geometry
  if coords = [] then (0, 0) else meanPoints coords

/-- JS `s.toLowerCase()`.  Lean's `String.toLower` acts identically on the
ASCII room names involved; this char-list form also reduces in the kernel. -/
def lowerStr (s : String) : String :=
  ⟨s.data.map Char.toLower⟩

/-- JS substring test `s.includes(pat)` for a nonempty pattern. -/
def hasSub (s pat : String) : Bool :=
  decide (pat.toList <:+: s.toList)

/-- Embedding of `isVerticalConnector` (pathfinding.js:58-70). -/
def isVerticalConnector (roomName : String) : Bool :=
  let name := lowerStr roomName
  hasSub name "stair" || hasSub name "escada" || hasSub name "elevador" ||
    hasSub name "elevator" || hasSub name "corredor" || hasSub name "corridor" ||
    hasSub name "hallway" || hasSub name "lobby"

/-- Embedding of `isCorridor` (pathfinding.js:73-84). -/
def isCorridor (roomName : String) : Bool :=
  let name := lowerStr roomName
  hasSub name "hall" || hasSub name "corridor" || hasSub name "corredor" ||
    hasSub name "hallway" || hasSub name "lobby" || hasSub name "passage" ||
    hasSub name "passagem"

/-- Embedding of `isNavigableRoom` (pathfinding.js:87-99). -/
def isNavigableRoom (roomName : String) : Bool :=
  let name := lowerStr roomName
  !(name = "floor" || name = "structure" || name = "void" || name = "exterior")

/-- Room key.  The JS code uses the string `` `${name}_F${floor}` ``; for
numeric floors (whose decimal rendering never contains an underscore) that
formatting is injective in the pair `(name, floor)`, so the key is modelled
as the pair itself. -/
abbrev RoomKey : Type := String × ℚ

/-- A logical room: all features sharing a `(name, floor)` key, together with
the centroid computed for the group (pathfinding.js:102-133). -/
structure RoomGroup : Type where
  name : String
  floor : ℚ
  features : List Feature
  centroid : Point

/-- One step of the first pass of `groupRoomsByName`: append `f` to the
group with key `k`, creating the group at the end when absent (JS `Map`
keeps insertion order and `set` on an existing key keeps its position). -/
def addToGroup (acc : List (RoomKey × RoomGroup)) (k : RoomKey) (f : Feature) :
    List (RoomKey × RoomGroup) :=
  match acc with
  | [] => [(k, ⟨k.1, k.2, [f], (0, 0)⟩)]
  | (k', g) :: rest =>
      if k = k' then (k', ⟨g.name, g.floor, g.features ++ [f], g.centroid⟩) :: rest
      else (k', g) :: addToGroup rest k f

/-- Key under which `groupRoomsByName` files a feature. -/
def featureKey (f : Feature) : RoomKey :=
  (getRoomName f, getRoomFloor f)

/-- Embedding of `groupRoomsByName` (pathfinding.js:102-133): the first pass
groups the features by `(name, floor)`, the second pass computes each group
centroid as the arithmetic mean of its member features' centroids.  (The JS
code stores `centroid: null` between the passes; the placeholder is modelled
as `(0, 0)` and is always overwritten because groups are never empty.) -/
def groupRoomsByName (features : List Feature) : List (RoomKey × RoomGroup) :=
  let base := features.foldl (fun acc f => addToGroup acc (featureKey f) f) []
  base.map (fun p =>
    (p.1, ⟨p.2.name, p.2.floor, p.2.features, meanPoints (p.2.features.map getCentroid)⟩))

/-! Claim C5: floor resolution order. -/

/-- Modelled from the claim's words (for comparison with the source): the
floor would be the first non-null value among `floor`, `level`, `nivel`, in
that order, defaulting to 0. -/
def specC5Floor (room : Feature) : ℚ :=
  match room.properties.floor with
  | some v => v
  | none =>
      match room.properties.level with
      | some v => v
      | none =>
          match room.properties.nivel with
          | some v => v
          | none => 0

/-- Concrete feature refuting claim C5: no `floor`, `level = 1`, `nivel = 2`. -/
def c5Feature : Feature :=
  ⟨.lineString [], ⟨none, none, none, none, some 2, some 1⟩⟩


/-- Claim C5, counterexample: on a feature with `level = 1` and `nivel = 2`
(and no `floor`), the code resolves the floor to `nivel = 2`, while the
claimed order floor/level/nivel would resolve it to `level = 1`. -/
theorem getRoomFloor_not_floor_level_nivel_order :
    getRoomFloor c5Feature = 2 ∧ specC5Floor c5Feature = 1 ∧ (2 : ℚ) ≠ 1 := by
  refine ⟨by rfl, by rfl, by norm_num⟩



/-- Claim C5, amended: the floor used for grouping is the first value among
the feature's `floor`, `nivel`, `level` properties, in that order, that is
present and nonzero (JS truthiness), defaulting to 0 when none qualifies. -/
theorem getRoomFloor_first_truthy (room : Feature) :
    getRoomFloor room =
      ((([room.properties.floor, room.properties.nivel, room.properties.level].filterMap
        id).filter (fun v => v ≠ 0)).headD 0) := by
  unfold getRoomFloor numOr
  rcases room.properties.floor with _ | a <;> rcases room.properties.nivel with _ | b <;>
    rcases room.properties.level with _ | c <;>
      simp [List.filterMap_cons, List.filter_cons] <;>
        try split_ifs <;> simp_all


/-! Claim C6: grouping is an exact partition. -/

/-- Member features of every group of an accumulator carry the key of their
group, the stored name and floor match the key, and no group is empty. -/
def GroupsWF (acc : List (RoomKey × RoomGroup)) : Prop :=
  ∀ p ∈ acc, p.2.name = p.1.1 ∧ p.2.floor = p.1.2 ∧ p.2.features ≠ [] ∧
    ∀ f ∈ p.2.features, featureKey f = p.1

theorem addToGroup_features_join (acc : List (RoomKey × RoomGroup)) (k : RoomKey)
    (f : Feature) :
    ((addToGroup acc k f).map (fun p => p.2.features)).flatten.Perm
      ((acc.map (fun p => p.2.features)).flatten ++ [f]) := by
  induction acc with
  | nil => simp [addToGroup]
  | cons hd tl ih =>
      obtain ⟨k', g⟩ := hd
      by_cases h : k = k'
      · simp only [addToGroup, if_pos h, List.map_cons, List.flatten_cons]
        simpa using List.Perm.append_left g.features
          (@List.perm_append_comm _ [f] ((tl.map (fun p => p.2.features)).flatten))
      · simp only [addToGroup, if_neg h, List.map_cons, List.flatten_cons]
        simpa using List.Perm.append_left g.features ih

theorem addToGroup_keys (acc : List (RoomKey × RoomGroup)) (k : RoomKey) (f : Feature) :
    (addToGroup acc k f).map Prod.fst =
      if k ∈ acc.map Prod.fst then acc.map Prod.fst else acc.map Prod.fst ++ [k] := by
  induction acc with
  | nil => simp [addToGroup]
  | cons hd tl ih =>
      obtain ⟨k', g⟩ := hd
      by_cases h : k = k'
      · simp [addToGroup, if_pos h, h]
      · simp only [addToGroup, if_neg h, List.map_cons, ih, List.mem_cons]
        by_cases hm : k ∈ tl.map Prod.fst
        · simp [hm, h]
        · simp [hm, h, Ne.symm]

theorem addToGroup_nodup_keys {acc : List (RoomKey × RoomGroup)} (k : RoomKey) (f : Feature)
    (h : (acc.map Prod.fst).Nodup) : ((addToGroup acc k f).map Prod.fst).Nodup := by
  rw [addToGroup_keys]
  split_ifs with hm
  · exact h
  · simp [List.nodup_append, h, hm]

theorem addToGroup_wf {acc : List (RoomKey × RoomGroup)} {f : Feature}
    (h : GroupsWF acc) : GroupsWF (addToGroup acc (featureKey f) f) := by
  induction acc with
  | nil =>
      intro p hp
      simp only [addToGroup, List.mem_singleton] at hp
      subst hp
      simp [featureKey]
  | cons hd tl ih =>
      obtain ⟨k', g⟩ := hd
      have hhd := h (k', g) (by simp)
      have htl : GroupsWF tl := fun p hp => h p (List.mem_cons_of_mem _ hp)
      by_cases hk : featureKey f = k'
      · intro p hp
        simp only [addToGroup, if_pos hk, List.mem_cons] at hp
        rcases hp with rfl | hp
        · refine ⟨hhd.1, hhd.2.1, by simp, ?_⟩
          intro x hx
          rcases List.mem_append.mp hx with hx | hx
          · exact hhd.2.2.2 x hx
          · simp only [List.mem_singleton] at hx
            subst hx
            exact hk
        · exact h p (List.mem_cons_of_mem _ hp)
      · intro p hp
        simp only [addToGroup, if_neg hk, List.mem_cons] at hp
        rcases hp with rfl | hp
        · exact hhd
        · exact ih htl p hp

/-- The first pass of `groupRoomsByName`, as a fold. -/
def groupBase (features : List Feature) : List (RoomKey × RoomGroup) :=
  features.foldl (fun acc f => addToGroup acc (featureKey f) f) []

theorem groupBase_features_join (features : List Feature)
    (acc : List (RoomKey × RoomGroup)) :
    ((features.foldl (fun a f => addToGroup a (featureKey f) f) acc).map
        (fun p => p.2.features)).flatten.Perm
      ((acc.map (fun p => p.2.features)).flatten ++ features) := by
  induction features generalizing acc with
  | nil => simp
  | cons f fs ih =>
      simp only [List.foldl_cons]
      refine (ih (addToGroup acc (featureKey f) f)).trans ?_
      refine ((addToGroup_features_join acc (featureKey f) f).append_right fs).trans ?_
      simp

theorem groupBase_nodup_keys (features : List Feature)
    (acc : List (RoomKey × RoomGroup)) (h : (acc.map Prod.fst).Nodup) :
    (((features.foldl (fun a f => addToGroup a (featureKey f) f) acc)).map
      Prod.fst).Nodup := by
  induction features generalizing acc with
  | nil => exact h
  | cons f fs ih => exact ih _ (addToGroup_nodup_keys _ f h)

theorem groupBase_wf (features : List Feature) (acc : List (RoomKey × RoomGroup))
    (h : GroupsWF acc) :
    GroupsWF (features.foldl (fun a f => addToGroup a (featureKey f) f) acc) := by
  induction features generalizing acc with
  | nil => exact h
  | cons f fs ih => exact ih _ (addToGroup_wf h)

theorem groupRoomsByName_eq_map (features : List Feature) :
    groupRoomsByName features = (groupBase features).map (fun p =>
      (p.1, ⟨p.2.name, p.2.floor, p.2.features,
        meanPoints (p.2.features.map getCentroid)⟩)) := rfl


/-- Claim C6: grouping by `(name, floor)` partitions the input features
exactly.  The concatenation of all groups' member lists is a permutation of
the input (no feature lost or duplicated), the group keys are pairwise
distinct, and every member feature carries exactly the key of its group (so
each feature occurrence lies in exactly one group, the one for its key). -/
theorem groupRooms_exact_partition (features : List Feature) :
    (((groupRoomsByName features).map (fun p => p.2.features)).flatten).Perm features ∧
    ((groupRoomsByName features).map Prod.fst).Nodup ∧
    ∀ p ∈ groupRoomsByName features, ∀ f ∈ p.2.features, featureKey f = p.1 := by
  have hfeat : (groupRoomsByName features).map (fun p => p.2.features) =
      (groupBase features).map (fun p => p.2.features) := by
    rw [groupRoomsByName_eq_map, List.map_map]
    rfl
  have hkeys : (groupRoomsByName features).map Prod.fst =
      (groupBase features).map Prod.fst := by
    rw [groupRoomsByName_eq_map, List.map_map]
    rfl
  refine ⟨?_, ?_, ?_⟩
  · have h := groupBase_features_join features []
    simp only [List.map_nil, List.flatten_nil, List.nil_append] at h
    rw [hfeat]
    exact h
  · rw [hkeys]
    exact groupBase_nodup_keys features [] (by simp)
  · intro p hp f hf
    rw [groupRoomsByName_eq_map] at hp
    rcases List.mem_map.mp hp with ⟨q, hq, rfl⟩
    exact (groupBase_wf features [] (by simp [GroupsWF]) q hq).2.2.2 f hf


/-! Claim C3: group centroids. -/

/-- Modelled from the claim's words (for comparison with the source): the
group centroid would be the arithmetic mean of all outer-ring vertices taken
across all member features' geometries, every vertex weighted equally. -/
def specC3FlatCentroid (features : List Feature) : Point :=
  meanPoints ((features.map (fun f => centroidCoords f.geometry)).flatten)

/-- First member feature for the C3 counterexample: a polygon whose outer
ring has two vertices `(0,0)` and `(2,0)`. -/
def c3FeatureA : Feature :=
  ⟨.polygon [[((0 : ℝ), (0 : ℝ)), ((2 : ℝ), (0 : ℝ))]],
    ⟨some "r", none, none, none, none, none⟩⟩

/-- Second member feature for the C3 counterexample: a polygon whose outer
ring has the single vertex `(4,0)`. -/
def c3FeatureB : Feature :=
  ⟨.polygon [[((4 : ℝ), (0 : ℝ))]], ⟨some "r", none, none, none, none, none⟩⟩


/-- Claim C3, counterexample: for a room made of a two-vertex feature and a
one-vertex feature, the code computes the mean of the two per-feature
centroids, `(5/2, 0)`, while the claimed flat mean over all three vertices is
`(2, 0)`. -/
theorem groupCentroid_not_flat_vertex_mean :
    (groupRoomsByName [c3FeatureA, c3FeatureB]).map (fun p => p.2.centroid) =
      [(((5 : ℝ) / 2, (0 : ℝ)))] ∧
    specC3FlatCentroid [c3FeatureA, c3FeatureB] = ((2 : ℝ), (0 : ℝ)) ∧
    (((5 : ℝ) / 2, (0 : ℝ))) ≠ (((2 : ℝ), (0 : ℝ))) := by
  refine ⟨?_, ?_, ?_⟩
  · simp [groupRoomsByName, c3FeatureA, c3FeatureB, featureKey, getRoomName,
      getRoomFloor, strOr, numOr, addToGroup, getCentroid, centroidCoords, meanPoints]
    norm_num
  · simp [specC3FlatCentroid, c3FeatureA, c3FeatureB, centroidCoords, meanPoints]
    norm_num
  · intro h
    have := congrArg Prod.fst h
    norm_num at this

/-- Claim C3, amended: the centroid of every Room produced by grouping is the
arithmetic mean of its member features' centroids (each member weighted
equally, regardless of how many vertices it has), where a member's centroid
is the mean of the coordinate list `getCentroid` selects (outer ring of a
`Polygon`, outer ring of the first polygon of a `MultiPolygon`, all points of
a `LineString`) and a member with an empty coordinate list contributes the
degenerate centroid `(0, 0)`; member lists are never empty. -/
theorem groupCentroid_mean_of_member_centroids (features : List Feature) :
    (∀ p ∈ groupRoomsByName features,
      p.2.centroid = meanPoints (p.2.features.map getCentroid) ∧ p.2.features ≠ []) ∧
    (∀ f : Feature, centroidCoords f.geometry = [] → getCentroid f = (0, 0)) := by
  constructor
  · intro p hp
    rw [groupRoomsByName_eq_map] at hp
    rcases List.mem_map.mp hp with ⟨q, hq, rfl⟩
    exact ⟨rfl, (groupBase_wf features [] (by simp [GroupsWF]) q hq).2.2.1⟩
  · intro f hf
    simp [getCentroid, hf]



/-! Graph building (pathfinding.js:136-238). -/

/-- Embedding of `distance` (pathfinding.js:5-9): Euclidean distance. -/
def distance (p1 p2 : Point) : ℝ :=
  Real.sqrt ((p1.1 - p2.1) * (p1.1 - p2.1) + (p1.2 - p2.2) * (p1.2 - p2.2))

/-- An adjacency-list entry of the room graph (pathfinding.js:197-203). -/
structure Neighbor : Type where
  key : RoomKey
  name : String
  floor : ℚ
  distance : ℝ
  isCorridor : Bool

/-- A node of the room graph (pathfinding.js:229-234). -/
structure GraphNode : Type where
  room : RoomGroup
  neighbors : List Neighbor
  centroid : Point
  isCorridor : Bool

/-- Key of a room group, `(name, floor)`. -/
def roomKey (r : RoomGroup) : RoomKey :=
  (r.name, r.floor)

/-- The neighbor entries contributed by `otherRoom` to the adjacency list of
`room` in the inner loop of `buildRoomGraph` (pathfinding.js:168-227):
same-room pairs are skipped; same-floor pairs connect when the centroid
distance is strictly between 0 and a class-dependent threshold, with a
class-dependent weight multiplier; floor-adjacent pairs connect when one
endpoint is a vertical connector and the distance is strictly between 0 and
0.02, with weight doubled. -/
def neighborEntry (room otherRoom : RoomGroup) : List Neighbor :=
  if room.name = otherRoom.name ∧ room.floor = otherRoom.floor then []
  else if room.floor = otherRoom.floor then
    let dist := distance room.centroid otherRoom.centroid
    let isRoomCorridor := isCorridor room.name
    let isOtherCorridor := isCorridor otherRoom.name
    let threshold : ℝ :=
      if isRoomCorridor && isOtherCorridor then 0.05
      else if isRoomCorridor || isOtherCorridor then 0.03
      else 0.015
    let distanceWeight : ℝ :=
      if isRoomCorridor && isOtherCorridor then dist * 0.8
      else if isRoomCorridor || isOtherCorridor then dist * 0.9
      else dist * 1.2
    if dist < threshold ∧ 0 < dist then
      [⟨roomKey otherRoom, otherRoom.name, otherRoom.floor, distanceWeight,
        isCorridor otherRoom.name⟩]
    else []
  else if |room.floor - otherRoom.floor| = 1 then
    if isVerticalConnector room.name || isVerticalConnector otherRoom.name then
      let dist := distance room.centroid otherRoom.centroid
      if dist < 0.02 ∧ 0 < dist then
        [⟨roomKey otherRoom, otherRoom.name, otherRoom.floor, dist * 2,
          isCorridor otherRoom.name⟩]
      else []
    else []
  else []

/-- Floor filter and navigability filter of `buildRoomGraph`
(pathfinding.js:140-147). -/
def navFiltered (roomGroups : List RoomGroup) (targetFloor : Option ℚ) : List RoomGroup :=
  let filtered :=
    match targetFloor with
    | some tf => roomGroups.filter (fun r : RoomGroup => r.floor = tf)
    | none => roomGroups
  filtered.filter (fun r => isNavigableRoom r.name)

/-- Embedding of `buildRoomGraph` (pathfinding.js:136-238).  The graph `Map`
is modelled as the association list of `(key, node)` pairs in insertion
order; the input room lists this is applied to have pairwise distinct keys,
so `Map.set` never overwrites. -/
def buildRoomGraph (roomGroups : List RoomGroup) (targetFloor : Option ℚ) :
    List (RoomKey × GraphNode) :=
  let filteredRooms := navFiltered roomGroups targetFloor
  filteredRooms.map (fun room =>
    (roomKey room,
      ⟨room, filteredRooms.flatMap (fun otherRoom => neighborEntry room otherRoom),
        room.centroid, isCorridor room.name⟩))

/-- JS `Map.get`, on an association list with distinct keys. -/
def alookup {α : Type _} (l : List (RoomKey × α)) (k : RoomKey) : Option α :=
  match l with
  | [] => none
  | (k1, v) :: rest => if k = k1 then some v else alookup rest k

theorem neighborEntry_key {room otherRoom : RoomGroup} {nb : Neighbor}
    (h : nb ∈ neighborEntry room otherRoom) : nb.key = roomKey otherRoom := by
  unfold neighborEntry at h
  split_ifs at h <;> simp_all

theorem nodup_roomKey_inj {l : List RoomGroup} (hnd : (l.map roomKey).Nodup)
    {a b : RoomGroup} (ha : a ∈ l) (hb : b ∈ l) (h : roomKey a = roomKey b) : a = b :=
  List.inj_on_of_nodup_map hnd ha hb h

theorem alookup_map_nodup {l : List RoomGroup} (f : RoomGroup → GraphNode)
    (hnd : (l.map roomKey).Nodup) {r : RoomGroup} (hr : r ∈ l) :
    alookup (l.map (fun x => (roomKey x, f x))) (roomKey r) = some (f r) := by
  induction l with
  | nil => cases hr
  | cons h t ih =>
      simp only [List.map_cons, List.nodup_cons] at hnd
      rcases List.mem_cons.mp hr with rfl | hrt
      · simp [alookup]
      · have hne : roomKey r ≠ roomKey h := by
          intro he
          exact hnd.1 (he ▸ List.mem_map_of_mem roomKey hrt)
        simp only [List.map_cons, alookup, if_neg hne]
        exact ih hnd.2 hrt

theorem mem_flatMap_neighborEntry {l : List RoomGroup} {r r2 : RoomGroup} {nb : Neighbor}
    (hnd : (l.map roomKey).Nodup) (h2 : r2 ∈ l)
    (hmem : nb ∈ l.flatMap (fun o => neighborEntry r o)) (hkey : nb.key = roomKey r2) :
    nb ∈ neighborEntry r r2 := by
  rcases List.mem_flatMap.mp hmem with ⟨o, ho, hno⟩
  have hko : roomKey o = roomKey r2 := by rw [← neighborEntry_key hno, hkey]
  have : o = r2 := nodup_roomKey_inj hnd ho h2 hko
  subst this
  exact hno

/-- Characterization of the vertical edges of the built graph, shared by the
C2 theorem, witness and counterexample. -/
theorem crossFloorEdgeChar (roomGroups : List RoomGroup) (tf : Option ℚ)
    (r1 r2 : RoomGroup) (hnd : ((navFiltered roomGroups tf).map roomKey).Nodup)
    (h1 : r1 ∈ navFiltered roomGroups tf) (h2 : r2 ∈ navFiltered roomGroups tf)
    (hfl : |r1.floor - r2.floor| = 1) :
    ∃ node, alookup (buildRoomGraph roomGroups tf) (roomKey r1) = some node ∧
      ((∃ nb ∈ node.neighbors, nb.key = roomKey r2) ↔
        ((isVerticalConnector r1.name || isVerticalConnector r2.name) = true ∧
          0 < distance r1.centroid r2.centroid ∧
          distance r1.centroid r2.centroid < 0.02)) ∧
      (∀ nb ∈ node.neighbors, nb.key = roomKey r2 →
        nb.distance = distance r1.centroid r2.centroid * 2) := by
  have hne : ¬ (r1.name = r2.name ∧ r1.floor = r2.floor) := by
    rintro ⟨-, hf⟩
    rw [hf] at hfl
    simp at hfl
  have hneq : r1.floor ≠ r2.floor := by
    intro hf
    rw [hf] at hfl
    simp at hfl
  have hchar : neighborEntry r1 r2 =
      if isVerticalConnector r1.name || isVerticalConnector r2.name then
        (if distance r1.centroid r2.centroid < 0.02 ∧ 0 < distance r1.centroid r2.centroid
          then [⟨roomKey r2, r2.name, r2.floor, distance r1.centroid r2.centroid * 2,
            isCorridor r2.name⟩]
          else [])
      else [] := by
    unfold neighborEntry
    rw [if_neg hne, if_neg hneq, if_pos hfl]
  refine ⟨_, alookup_map_nodup _ hnd h1, ?_, ?_⟩
  · constructor
    · rintro ⟨nb, hnb, hkey⟩
      have hm := mem_flatMap_neighborEntry hnd h2 hnb hkey
      rw [hchar] at hm
      split_ifs at hm with hvc hd
      · exact ⟨hvc, hd.2, hd.1⟩
      · cases hm
      · cases hm
    · rintro ⟨hvc, hpos, hlt⟩
      refine ⟨⟨roomKey r2, r2.name, r2.floor, distance r1.centroid r2.centroid * 2,
        isCorridor r2.name⟩, ?_, rfl⟩
      apply List.mem_flatMap.mpr
      refine ⟨r2, h2, ?_⟩
      rw [hchar, if_pos hvc, if_pos ⟨hlt, hpos⟩]
      simp
  · intro nb hnb hkey
    have hm := mem_flatMap_neighborEntry hnd h2 hnb hkey
    rw [hchar] at hm
    split_ifs at hm
    · simp only [List.mem_singleton] at hm
      rw [hm]
    · cases hm
    · cases hm

/-- Characterization of the same-floor edges of the built graph, shared by
the C4 theorem, witness and counterexample. -/
theorem sameFloorEdgeChar (roomGroups : List RoomGroup) (tf : Option ℚ)
    (r1 r2 : RoomGroup) (hnd : ((navFiltered roomGroups tf).map roomKey).Nodup)
    (h1 : r1 ∈ navFiltered roomGroups tf) (h2 : r2 ∈ navFiltered roomGroups tf)
    (hkey : roomKey r1 ≠ roomKey r2) (hfl : r1.floor = r2.floor) :
    ∃ node, alookup (buildRoomGraph roomGroups tf) (roomKey r1) = some node ∧
      ((∃ nb ∈ node.neighbors, nb.key = roomKey r2) ↔
        (0 < distance r1.centroid r2.centroid ∧
          distance r1.centroid r2.centroid <
            (if isCorridor r1.name && isCorridor r2.name then 0.05
             else if isCorridor r1.name || isCorridor r2.name then 0.03
             else 0.015))) ∧
      (∀ nb ∈ node.neighbors, nb.key = roomKey r2 →
        nb.distance = distance r1.centroid r2.centroid *
          (if isCorridor r1.name && isCorridor r2.name then 0.8
           else if isCorridor r1.name || isCorridor r2.name then 0.9
           else 1.2)) := by
  have hnn : r1.name ≠ r2.name := by
    intro hn
    exact hkey (by simp [roomKey, hn, hfl])
  have hne : ¬ (r1.name = r2.name ∧ r1.floor = r2.floor) := by
    rintro ⟨hn, -⟩
    exact hnn hn
  have hchar : neighborEntry r1 r2 =
      if distance r1.centroid r2.centroid <
          (if isCorridor r1.name && isCorridor r2.name then 0.05
           else if isCorridor r1.name || isCorridor r2.name then 0.03
           else 0.015) ∧ 0 < distance r1.centroid r2.centroid then
        [⟨roomKey r2, r2.name, r2.floor,
          distance r1.centroid r2.centroid *
            (if isCorridor r1.name && isCorridor r2.name then 0.8
             else if isCorridor r1.name || isCorridor r2.name then 0.9
             else 1.2), isCorridor r2.name⟩]
      else [] := by
    unfold neighborEntry
    rw [if_neg hne, if_pos hfl]
    cases hc1 : isCorridor r1.name <;> cases hc2 : isCorridor r2.name <;>
      simp [hc1, hc2]
  refine ⟨_, alookup_map_nodup _ hnd h1, ?_, ?_⟩
  · constructor
    · rintro ⟨nb, hnb, hk⟩
      have hm := mem_flatMap_neighborEntry hnd h2 hnb hk
      rw [hchar] at hm
      by_cases hd : distance r1.centroid r2.centroid <
          (if isCorridor r1.name && isCorridor r2.name then 0.05
           else if isCorridor r1.name || isCorridor r2.name then 0.03
           else 0.015) ∧ 0 < distance r1.centroid r2.centroid
      · exact ⟨hd.2, hd.1⟩
      · rw [if_neg hd] at hm
        cases hm
    · rintro ⟨hpos, hlt⟩
      refine ⟨⟨roomKey r2, r2.name, r2.floor,
        distance r1.centroid r2.centroid *
          (if isCorridor r1.name && isCorridor r2.name then 0.8
           else if isCorridor r1.name || isCorridor r2.name then 0.9
           else 1.2), isCorridor r2.name⟩, ?_, rfl⟩
      apply List.mem_flatMap.mpr
      refine ⟨r2, h2, ?_⟩
      rw [hchar, if_pos ⟨hlt, hpos⟩]
      simp
  · intro nb hnb hk
    have hm := mem_flatMap_neighborEntry hnd h2 hnb hk
    rw [hchar] at hm
    by_cases hd : distance r1.centroid r2.centroid <
        (if isCorridor r1.name && isCorridor r2.name then 0.05
         else if isCorridor r1.name || isCorridor r2.name then 0.03
         else 0.015) ∧ 0 < distance r1.centroid r2.centroid
    · rw [if_pos hd] at hm
      simp only [List.mem_singleton] at hm
      rw [hm]
    · rw [if_neg hd] at hm
      cases hm

/-! Claim C2: cross-floor edges. -/

/-- Modelled from the claim's words (for comparison with the source): the
vertical-connector pattern the claim states, consisting of
stairs/escada/elevador/elevator/lift. -/
def specC2Pattern (roomName : String) : Bool :=
  let name := lowerStr roomName
  hasSub name "stairs" || hasSub name "escada" || hasSub name "elevador" ||
    hasSub name "elevator" || hasSub name "lift"

/-- Corridor room used by the C2 counterexample and witness. -/
def c2Corridor : RoomGroup :=
  ⟨"corridor", 0, [], ((0 : ℝ), (0 : ℝ))⟩

/-- Plain room on the next floor used by the C2 counterexample and witness. -/
def c2Office : RoomGroup :=
  ⟨"officex", 1, [], ((1 / 1000 : ℝ), (0 : ℝ))⟩

theorem c2_navFiltered :
    navFiltered [c2Corridor, c2Office] none = [c2Corridor, c2Office] := by
  apply List.filter_eq_self.mpr
  intro a ha
  rcases List.mem_cons.mp ha with rfl | ha
  · decide
  · rcases List.mem_cons.mp ha with rfl | ha
    · decide
    · cases ha

theorem c2_distance : distance c2Corridor.centroid c2Office.centroid = 1 / 1000 := by
  unfold c2Corridor c2Office distance
  have h : (((0 : ℝ), (0 : ℝ)).1 - ((1 / 1000 : ℝ), (0 : ℝ)).1) *
        (((0 : ℝ), (0 : ℝ)).1 - ((1 / 1000 : ℝ), (0 : ℝ)).1) +
        (((0 : ℝ), (0 : ℝ)).2 - ((1 / 1000 : ℝ), (0 : ℝ)).2) *
        (((0 : ℝ), (0 : ℝ)).2 - ((1 / 1000 : ℝ), (0 : ℝ)).2) = (1 / 1000 : ℝ) ^ 2 := by
    norm_num
  rw [h, Real.sqrt_sq (by norm_num)]

/-- Claim C2, counterexample: in the graph built from a room named
"corridor" on floor 0 and a room named "officex" on floor 1 (centroids
1/1000 apart), a cross-floor edge from "corridor" to "officex" is created,
even though neither endpoint name matches the claimed pattern
stairs/escada/elevador/elevator/lift: the code also lets corridor-like names
act as vertical connectors (and does not recognise "lift"). -/
theorem crossFloorEdge_not_claimed_pattern :
    (∃ node, alookup (buildRoomGraph [c2Corridor, c2Office] none) ("corridor", 0) =
        some node ∧ ∃ nb ∈ node.neighbors, nb.key = ("officex", 1)) ∧
    specC2Pattern "corridor" = false ∧ specC2Pattern "officex" = false := by
  obtain ⟨node, hnode, hiff, -⟩ :=
    crossFloorEdgeChar [c2Corridor, c2Office] none c2Corridor c2Office
      (by rw [c2_navFiltered]; decide)
      (by rw [c2_navFiltered]; exact List.mem_cons_self _ _)
      (by rw [c2_navFiltered]; exact List.mem_cons_of_mem _ (List.mem_cons_self _ _))
      (by show |(0 : ℚ) - 1| = 1; norm_num)
  refine ⟨⟨node, hnode, ?_⟩, by decide, by decide⟩
  exact hiff.mpr ⟨by decide, by rw [c2_distance]; norm_num, by rw [c2_distance]; norm_num⟩

/-- Claim C2, amended: in `buildRoomGraph`, for every pair of navigable rooms
whose floors differ by exactly 1, an edge is created exactly when at least
one endpoint's name matches the code's vertical-connector pattern
(stair/escada/elevador/elevator/corredor/corridor/hallway/lobby — not
"lift") and the centroid distance is strictly between 0 and the 0.02
threshold; when created, the edge weight equals the raw centroid distance
multiplied by 2. -/
theorem buildRoomGraph_cross_floor_edges (roomGroups : List RoomGroup) (tf : Option ℚ)
    (r1 r2 : RoomGroup) (hnd : ((navFiltered roomGroups tf).map roomKey).Nodup)
    (h1 : r1 ∈ navFiltered roomGroups tf) (h2 : r2 ∈ navFiltered roomGroups tf)
    (hfl : |r1.floor - r2.floor| = 1) :
    ∃ node, alookup (buildRoomGraph roomGroups tf) (roomKey r1) = some node ∧
      ((∃ nb ∈ node.neighbors, nb.key = roomKey r2) ↔
        ((isVerticalConnector r1.name || isVerticalConnector r2.name) = true ∧
          0 < distance r1.centroid r2.centroid ∧
          distance r1.centroid r2.centroid < 0.02)) ∧
      (∀ nb ∈ node.neighbors, nb.key = roomKey r2 →
        nb.distance = distance r1.centroid r2.centroid * 2) :=
  crossFloorEdgeChar roomGroups tf r1 r2 hnd h1 h2 hfl

/-- Claim C2, witness: the amended theorem instantiated on the concrete
two-room graph of the counterexample. -/
theorem buildRoomGraph_cross_floor_edges_witness :
    ∃ node, alookup (buildRoomGraph [c2Corridor, c2Office] none) (roomKey c2Corridor) =
        some node ∧
      ((∃ nb ∈ node.neighbors, nb.key = roomKey c2Office) ↔
        ((isVerticalConnector c2Corridor.name || isVerticalConnector c2Office.name) = true ∧
          0 < distance c2Corridor.centroid c2Office.centroid ∧
          distance c2Corridor.centroid c2Office.centroid < 0.02)) ∧
      (∀ nb ∈ node.neighbors, nb.key = roomKey c2Office →
        nb.distance = distance c2Corridor.centroid c2Office.centroid * 2) :=
  buildRoomGraph_cross_floor_edges [c2Corridor, c2Office] none c2Corridor c2Office
    (by rw [c2_navFiltered]; decide)
    (by rw [c2_navFiltered]; exact List.mem_cons_self _ _)
    (by rw [c2_navFiltered]; exact List.mem_cons_of_mem _ (List.mem_cons_self _ _))
    (by show |(0 : ℚ) - 1| = 1; norm_num)

/-! Claim C4: same-floor edges. -/

/-- First regular room for the C4 counterexample: centroid `(0,0)`. -/
def c4Alpha : RoomGroup :=
  ⟨"alpha", 0, [], ((0 : ℝ), (0 : ℝ))⟩

/-- Second regular room for the C4 counterexample: the same centroid
`(0,0)` as `c4Alpha`. -/
def c4Beta : RoomGroup :=
  ⟨"beta", 0, [], ((0 : ℝ), (0 : ℝ))⟩

/-- Third regular room, 1/100 away from `c4Alpha`, for the C4 witness. -/
def c4Gamma : RoomGroup :=
  ⟨"gamma", 0, [], ((1 / 100 : ℝ), (0 : ℝ))⟩

theorem c4_navFiltered :
    navFiltered [c4Alpha, c4Beta] none = [c4Alpha, c4Beta] := by
  apply List.filter_eq_self.mpr
  intro a ha
  rcases List.mem_cons.mp ha with rfl | ha
  · decide
  · rcases List.mem_cons.mp ha with rfl | ha
    · decide
    · cases ha

theorem c4_zero_distance : distance c4Alpha.centroid c4Beta.centroid = 0 := by
  unfold c4Alpha c4Beta distance
  have h : (((0 : ℝ), (0 : ℝ)).1 - ((0 : ℝ), (0 : ℝ)).1) *
        (((0 : ℝ), (0 : ℝ)).1 - ((0 : ℝ), (0 : ℝ)).1) +
        (((0 : ℝ), (0 : ℝ)).2 - ((0 : ℝ), (0 : ℝ)).2) *
        (((0 : ℝ), (0 : ℝ)).2 - ((0 : ℝ), (0 : ℝ)).2) = 0 := by norm_num
  rw [h, Real.sqrt_zero]

/-- Claim C4, counterexample: two distinct regular rooms on the same floor
with identical centroids have distance 0, which is below the tightest
threshold 0.015, yet no edge is created between them — the code additionally
requires the distance to be strictly positive, so "an edge is created
exactly when the distance is below the threshold" fails at distance 0. -/
theorem sameFloorEdge_zero_distance_counterexample :
    distance c4Alpha.centroid c4Beta.centroid = 0 ∧ ((0 : ℝ) < 0.015) ∧
    ∃ node, alookup (buildRoomGraph [c4Alpha, c4Beta] none) ("alpha", 0) = some node ∧
      ¬ ∃ nb ∈ node.neighbors, nb.key = ("beta", 0) := by
  obtain ⟨node, hnode, hiff, -⟩ :=
    sameFloorEdgeChar [c4Alpha, c4Beta] none c4Alpha c4Beta
      (by rw [c4_navFiltered]; decide)
      (by rw [c4_navFiltered]; exact List.mem_cons_self _ _)
      (by rw [c4_navFiltered]; exact List.mem_cons_of_mem _ (List.mem_cons_self _ _))
      (by decide) rfl
  refine ⟨c4_zero_distance, by norm_num, node, hnode, ?_⟩
  intro hedge
  have := hiff.mp hedge
  rw [c4_zero_distance] at this
  exact absurd this.1 (by norm_num)

/-- Claim C4, amended: in `buildRoomGraph`, for every pair of distinct
navigable rooms on the same floor, an edge is created exactly when their
centroid Euclidean distance is strictly positive and below the threshold for
the pair's class combination — corridor-corridor the widest threshold 0.05
with weight multiplier 0.8, corridor-regular the medium threshold 0.03 with
multiplier 0.9, regular-regular the tightest threshold 0.015 with multiplier
1.2; the thresholds are strictly ordered widest > medium > tightest. -/
theorem buildRoomGraph_same_floor_edges (roomGroups : List RoomGroup) (tf : Option ℚ)
    (r1 r2 : RoomGroup) (hnd : ((navFiltered roomGroups tf).map roomKey).Nodup)
    (h1 : r1 ∈ navFiltered roomGroups tf) (h2 : r2 ∈ navFiltered roomGroups tf)
    (hkey : roomKey r1 ≠ roomKey r2) (hfl : r1.floor = r2.floor) :
    (∃ node, alookup (buildRoomGraph roomGroups tf) (roomKey r1) = some node ∧
      ((∃ nb ∈ node.neighbors, nb.key = roomKey r2) ↔
        (0 < distance r1.centroid r2.centroid ∧
          distance r1.centroid r2.centroid <
            (if isCorridor r1.name && isCorridor r2.name then 0.05
             else if isCorridor r1.name || isCorridor r2.name then 0.03
             else 0.015))) ∧
      (∀ nb ∈ node.neighbors, nb.key = roomKey r2 →
        nb.distance = distance r1.centroid r2.centroid *
          (if isCorridor r1.name && isCorridor r2.name then 0.8
           else if isCorridor r1.name || isCorridor r2.name then 0.9
           else 1.2))) ∧
    ((0.015 : ℝ) < 0.03 ∧ (0.03 : ℝ) < 0.05) :=
  ⟨sameFloorEdgeChar roomGroups tf r1 r2 hnd h1 h2 hkey hfl, by norm_num, by norm_num⟩

/-- Claim C4, witness: the amended theorem instantiated on a concrete graph
of two regular rooms 1/100 apart on floor 0. -/
theorem buildRoomGraph_same_floor_edges_witness :
    (∃ node, alookup (buildRoomGraph [c4Alpha, c4Gamma] none) (roomKey c4Alpha) =
        some node ∧
      ((∃ nb ∈ node.neighbors, nb.key = roomKey c4Gamma) ↔
        (0 < distance c4Alpha.centroid c4Gamma.centroid ∧
          distance c4Alpha.centroid c4Gamma.centroid <
            (if isCorridor c4Alpha.name && isCorridor c4Gamma.name then 0.05
             else if isCorridor c4Alpha.name || isCorridor c4Gamma.name then 0.03
             else 0.015))) ∧
      (∀ nb ∈ node.neighbors, nb.key = roomKey c4Gamma →
        nb.distance = distance c4Alpha.centroid c4Gamma.centroid *
          (if isCorridor c4Alpha.name && isCorridor c4Gamma.name then 0.8
           else if isCorridor c4Alpha.name || isCorridor c4Gamma.name then 0.9
           else 1.2))) ∧
    ((0.015 : ℝ) < 0.03 ∧ (0.03 : ℝ) < 0.05) :=
  buildRoomGraph_same_floor_edges [c4Alpha, c4Gamma] none c4Alpha c4Gamma
    (by
      have h : navFiltered [c4Alpha, c4Gamma] none = [c4Alpha, c4Gamma] := by
        apply List.filter_eq_self.mpr
        intro a ha
        rcases List.mem_cons.mp ha with rfl | ha
        · decide
        · rcases List.mem_cons.mp ha with rfl | ha
          · decide
          · cases ha
      rw [h]; decide)
    (by
      have h : navFiltered [c4Alpha, c4Gamma] none = [c4Alpha, c4Gamma] := by
        apply List.filter_eq_self.mpr
        intro a ha
        rcases List.mem_cons.mp ha with rfl | ha
        · decide
        · rcases List.mem_cons.mp ha with rfl | ha
          · decide
          · cases ha
      rw [h]; exact List.mem_cons_self _ _)
    (by
      have h : navFiltered [c4Alpha, c4Gamma] none = [c4Alpha, c4Gamma] := by
        apply List.filter_eq_self.mpr
        intro a ha
        rcases List.mem_cons.mp ha with rfl | ha
        · decide
        · rcases List.mem_cons.mp ha with rfl | ha
          · decide
          · cases ha
      rw [h]; exact List.mem_cons_of_mem _ (List.mem_cons_self _ _))
    (by decide) rfl

/-! A* search (pathfinding.js:241-371). -/

/-- Functional update of a map, JS `Map.set`. -/
def fupd {α : Type _} (m : RoomKey → Option α) (k : RoomKey) (v : α) :
    RoomKey → Option α :=
  fun x => if x = k then some v else m x

/-- The A* bookkeeping state: the open set and closed set (JS `Set`s, modelled
as duplicate-free lists in insertion order) and the `cameFrom`, `gScore` and
`fScore` maps (only ever read pointwise, modelled as functions). -/
structure AStarState : Type where
  openSet : List RoomKey
  closedSet : List RoomKey
  cameFrom : RoomKey → Option RoomKey
  gScore : RoomKey → Option ℝ
  fScore : RoomKey → Option ℝ

/-- JS `fScore.get(key) || Infinity` (pathfinding.js:275): a missing entry is
`Infinity`, and so is a stored 0, because `0` is falsy; `none` models
`Infinity`. -/
def getF (fs : RoomKey → Option ℝ) (k : RoomKey) : Option ℝ :=
  match fs k with
  | none => none
  | some v => if v = 0 then none else some v

/-- The open-set scan for the node with the lowest f-score
(pathfinding.js:270-280): iterate in insertion order keeping the first
strictly-smallest finite f; `null` when every f is `Infinity`. -/
def pickCurrent (fs : RoomKey → Option ℝ) (openSet : List RoomKey) : Option RoomKey :=
  (openSet.foldl (fun acc k =>
    match getF fs k with
    | none => acc
    | some fv =>
        match acc.2 with
        | none => (some k, some fv)
        | some lf => if fv < lf then (some k, some fv) else acc)
    ((none : Option RoomKey), (none : Option ℝ))).1

/-- Update performed on a neighbor whose tentative g-score improves on its
current one (pathfinding.js:337-362): `cameFrom` and `gScore` are set first;
`fScore` and the open set are only touched when the neighbor is a node of the
graph. -/
def relaxUpdate (graph : List (RoomKey × GraphNode)) (endNode : GraphNode)
    (current : RoomKey) (st : AStarState) (nb : Neighbor) (tentative : ℝ) : AStarState :=
  let cameFrom := fupd st.cameFrom nb.key current
  let gScore := fupd st.gScore nb.key tentative
  match alookup graph nb.key with
  | none => ⟨st.openSet, st.closedSet, cameFrom, gScore, st.fScore⟩
  | some nbNode =>
      let h := distance nbNode.centroid endNode.centroid
      let fScore := fupd st.fScore nb.key (tentative + h)
      let openSet :=
        if nb.key ∈ st.openSet then st.openSet else st.openSet ++ [nb.key]
      ⟨openSet, st.closedSet, cameFrom, gScore, fScore⟩

/-- Processing of one neighbor of the current node (pathfinding.js:326-364):
closed neighbors are skipped; otherwise the edge is relaxed when the
tentative g-score beats the recorded one (a missing record is `Infinity`). -/
def relaxOne (graph : List (RoomKey × GraphNode)) (endNode : GraphNode)
    (current : RoomKey) (currentG : ℝ) (st : AStarState) (nb : Neighbor) : AStarState :=
  if nb.key ∈ st.closedSet then st
  else
    let tentative := currentG + nb.distance
    match st.gScore nb.key with
    | some oldG =>
        if tentative < oldG then relaxUpdate graph endNode current st nb tentative else st
    | none => relaxUpdate graph endNode current st nb tentative

/-- Path reconstruction by walking `cameFrom` from the goal
(pathfinding.js:299-307), on fuel that provably covers the walk. -/
def reconstruct (cameFrom : RoomKey → Option RoomKey) : ℕ → RoomKey → List RoomKey
  | 0, k => [k]
  | n + 1, k =>
      match cameFrom k with
      | none => [k]
      | some p => reconstruct cameFrom n p ++ [k]

/-- Outcome of one iteration of the A* `while` loop. -/
inductive StepResult : Type
  | found (path : List RoomKey)
  | nopath
  | next (st : AStarState)

/-- One iteration of the A* `while` loop (pathfinding.js:267-365): stop with
`null` when the open set is empty or no open node has a finite f-score;
reconstruct when the goal is chosen; otherwise move the chosen node from the
open to the closed set and relax its outgoing edges (a node missing from the
graph, or one with no recorded g-score — JS `Infinity` — relaxes nothing). -/
def aStarStep (graph : List (RoomKey × GraphNode)) (endKey : RoomKey)
    (endNode : GraphNode) (st : AStarState) : StepResult :=
  if st.openSet = [] then .nopath
  else
    match pickCurrent st.fScore st.openSet with
    | none => .nopath
    | some current =>
        if current = endKey then
          .found (reconstruct st.cameFrom (graph.length + 1) current)
        else
          let st1 : AStarState :=
            ⟨st.openSet.filter (fun k => k ≠ current), st.closedSet ++ [current],
              st.cameFrom, st.gScore, st.fScore⟩
          match alookup graph current with
          | none => .next st1
          | some currentNode =>
              match st1.gScore current with
              | none => .next st1
              | some currentG =>
                  .next (currentNode.neighbors.foldl
                    (fun s nb => relaxOne graph endNode current currentG s nb) st1)

/-- The A* `while` loop on fuel.  Each iteration grows the closed set by one
key of the graph and closed keys never re-enter the open set, so
`graph.length + 1` iterations always suffice (exhausted fuel returns the
JS loop's no-path result). -/
def aStarLoop (graph : List (RoomKey × GraphNode)) (endKey : RoomKey)
    (endNode : GraphNode) : ℕ → AStarState → Option (List RoomKey)
  | 0, _ => none
  | n + 1, st =>
      match aStarStep graph endKey endNode st with
      | .found p => some p
      | .nopath => none
      | .next st2 => aStarLoop graph endKey endNode n st2

/-- Embedding of `aStar` (pathfinding.js:241-371). -/
def aStar (graph : List (RoomKey × GraphNode)) (startKey endKey : RoomKey) :
    Option (List RoomKey) :=
  match alookup graph startKey, alookup graph endKey with
  | some startNode, some endNode =>
      let h := distance startNode.centroid endNode.centroid
      aStarLoop graph endKey endNode (graph.length + 1)
        ⟨[startKey], [], fun _ => none, fupd (fun _ => none) startKey 0,
          fupd (fun _ => none) startKey h⟩
  | _, _ => none

/-! Route resolution (pathfinding.js:374-494) and path enhancement
(pathfinding.js:497-673). -/

/-- One step of a resolved route: coordinates, floor, room name, source
features, corridor flag, and the `isWaypoint` flag carried by points the
path enhancer inserts (absent — falsy — on the others). -/
structure RoutePoint : Type where
  coords : Point
  floor : ℚ
  name : String
  features : List Feature
  isCorridor : Bool
  isWaypoint : Bool

/-- The start/end key scan of `findRoute` (pathfinding.js:404-412): the
graph is walked in insertion order and the key of every node whose
lower-cased name equals the searched name is recorded, so the last match
wins. -/
def resolveKey (graph : List (RoomKey × GraphNode)) (name : String) : Option RoomKey :=
  graph.foldl (fun acc p => if lowerStr p.2.room.name = name then some p.1 else acc) none

/-- Boundary vertex pool of a route point's room (pathfinding.js:497-508):
all outer-ring/line vertices of its member features. -/
def boundaryPool (features : List Feature) : List Point :=
  features.flatMap (fun f => centroidCoords f.geometry)

/-- Embedding of `getRoomBoundaryPoints` (pathfinding.js:497-525): the pool
vertex closest to the target (first strictly-closest in pool order), `null`
for an empty pool. -/
def getRoomBoundaryPoints (room : RoutePoint) (targetPoint : Point) : Option Point :=
  match boundaryPool room.features with
  | [] => none
  | c0 :: _ =>
      some (((boundaryPool room.features).foldl (fun (acc : Point × ℝ) c =>
        let d := distance c targetPoint
        if d < acc.2 then (c, d) else acc) (c0, distance c0 targetPoint)).1)

/-- Embedding of `getCorridorPathPoints` (pathfinding.js:528-561): `numPoints`
evenly spaced points on the segment between the boundary vertices nearest to
the entry and exit points; empty when the pool has fewer than 3 vertices. -/
def getCorridorPathPoints (room : RoutePoint) (fromPoint toPoint : Point)
    (numPoints : ℕ) : List Point :=
  let coords := boundaryPool room.features
  if coords.length < 3 then []
  else
    match getRoomBoundaryPoints room fromPoint, getRoomBoundaryPoints room toPoint with
    | some entryPoint, some exitPoint =>
        (List.range numPoints).map (fun i =>
          let t : ℝ := (i + 1) / (numPoints + 1)
          (entryPoint.1 + (exitPoint.1 - entryPoint.1) * t,
           entryPoint.2 + (exitPoint.2 - entryPoint.2) * t))
    | _, _ => []

/-- The waypoints inserted after position `i` of the path by the loop body of
`addCorridorWaypoints` (pathfinding.js:573-665): nothing after the last
point; otherwise, for gaps over 0.008, a boundary vertex on a
corridor/non-corridor transition, up to 5 spine or interpolated points
between two corridors over 0.015 apart, or a midpoint between two regular
rooms over 0.012 apart.  Every inserted point carries `isWaypoint := true`. -/
def insertedAt (path : List RoutePoint) (i : ℕ) : List RoutePoint :=
  if h : i + 1 < path.length then
    let current := path.get ⟨i, Nat.lt_of_succ_lt h⟩
    let next := path.get ⟨i + 1, h⟩
    let dist := distance current.coords next.coords
    if 0.008 < dist then
      let currentIsCorridor := isCorridor current.name
      let nextIsCorridor := isCorridor next.name
      if currentIsCorridor ≠ nextIsCorridor then
        match (if currentIsCorridor then getRoomBoundaryPoints current next.coords
          else getRoomBoundaryPoints next current.coords) with
        | some waypointCoord =>
            [⟨waypointCoord, current.floor,
              (if currentIsCorridor then current.name else next.name),
              (if currentIsCorridor then current.features else next.features),
              false, true⟩]
        | none => []
      else if currentIsCorridor ∧ nextIsCorridor ∧ 0.015 < dist then
        let numWaypoints := (min ⌊dist / 0.01⌋ 5).toNat
        let prevCoords :=
          match hi : i with
          | 0 => current.coords
          | j + 1 => (path.get ⟨j, by omega⟩).coords
        let nextNextCoords :=
          if h2 : i + 2 < path.length then (path.get ⟨i + 2, h2⟩).coords
          else next.coords
        let corridorPoints := getCorridorPathPoints current prevCoords nextNextCoords
          numWaypoints
        if corridorPoints ≠ [] then
          corridorPoints.map (fun pt =>
            ⟨pt, current.floor, current.name, current.features, false, true⟩)
        else
          (List.range numWaypoints).map (fun j =>
            let t : ℝ := (j + 1) / (numWaypoints + 1)
            ⟨(current.coords.1 + (next.coords.1 - current.coords.1) * t,
              current.coords.2 + (next.coords.2 - current.coords.2) * t),
              current.floor, current.name, current.features, false, true⟩)
      else if (!currentIsCorridor) ∧ (!nextIsCorridor) ∧ 0.012 < dist then
        [⟨((current.coords.1 + next.coords.1) / 2, (current.coords.2 + next.coords.2) / 2),
          current.floor, "transition", current.features, false, true⟩]
      else []
    else []
  else []

/-- The `for` loop of `addCorridorWaypoints` from position `i` on: push the
current point, then the points inserted after it. -/
def addCWAux (path : List RoutePoint) (i : ℕ) : List RoutePoint :=
  if h : i < path.length then
    path.get ⟨i, h⟩ :: (insertedAt path i ++ addCWAux path (i + 1))
  else []
termination_by path.length - i

/-- Embedding of `addCorridorWaypoints` (pathfinding.js:564-673). -/
def addCorridorWaypoints (path : List RoutePoint) : List RoutePoint :=
  if path.length < 2 then path else addCWAux path 0

/-- Embedding of `findRoute` (pathfinding.js:374-494).  The keys returned by
`aStar` always name nodes of the graph, so the coordinate conversion's
`graph.get` is modelled with `filterMap`. -/
def findRoute (rooms : List Feature) (startRoom endRoom : Feature)
    (targetFloor : Option ℚ) : Option (List RoutePoint) :=
  let startName := lowerStr (getRoomName startRoom)
  let endName := lowerStr (getRoomName endRoom)
  if startName = "" ∨ endName = "" then none
  else
    let roomGroups := groupRoomsByName rooms
    let graph := buildRoomGraph (roomGroups.map Prod.snd) targetFloor
    match resolveKey graph startName, resolveKey graph endName with
    | some startKey, some endKey =>
        match aStar graph startKey endKey with
        | none => none
        | some pathKeys =>
            some (addCorridorWaypoints (pathKeys.filterMap (fun k =>
              (alookup graph k).map (fun node =>
                ⟨node.centroid, node.room.floor, node.room.name, node.room.features,
                  node.isCorridor, false⟩))))
    | _, _ => none

/-! Claim C10: the path enhancer only inserts flagged waypoints between
consecutive input points. -/

theorem insertedAt_isWaypoint (path : List RoutePoint) (i : ℕ) :
    ∀ w ∈ insertedAt path i, w.isWaypoint = true := by
  intro w hw
  simp only [insertedAt] at hw
  repeat' split at hw
  all_goals simp_all
  all_goals
    obtain ⟨a, b, -, rfl⟩ := hw
  all_goals rfl

theorem addCWAux_stop (path : List RoutePoint) (i : ℕ) (h : ¬ i < path.length) :
    addCWAux path i = [] := by
  rw [addCWAux]
  exact dif_neg h

theorem addCWAux_step (path : List RoutePoint) (i : ℕ) (h : i < path.length) :
    addCWAux path i = path.get ⟨i, h⟩ :: (insertedAt path i ++ addCWAux path (i + 1)) := by
  rw [addCWAux]
  exact dif_pos h

theorem insertedAt_last (path : List RoutePoint) (i : ℕ) (h : ¬ i + 1 < path.length) :
    insertedAt path i = [] := by
  rw [insertedAt]
  exact dif_neg h

theorem addCWAux_decomposition (path : List RoutePoint) :
    ∀ (n i : ℕ), path.length - i = n + 1 →
      ∃ ws : List (List RoutePoint), ws.length = n ∧
        addCWAux path i =
          (List.zipWith (fun p l => p :: l) (path.drop i) (ws ++ [[]])).flatten ∧
        ∀ l ∈ ws, ∀ w ∈ l, w.isWaypoint = true := by
  intro n
  induction n with
  | zero =>
      intro i hi
      have h : i < path.length := by omega
      have hlast : ¬ i + 1 < path.length := by omega
      refine ⟨[], rfl, ?_, by simp⟩
      rw [addCWAux_step path i h, insertedAt_last path i hlast, addCWAux_stop path (i + 1)
        (by omega)]
      rw [List.drop_eq_getElem_cons h, List.drop_eq_nil_of_le (by omega)]
      simp
  | succ n ih =>
      intro i hi
      have h : i < path.length := by omega
      obtain ⟨ws, hlen, heq, hflag⟩ := ih (i + 1) (by omega)
      refine ⟨insertedAt path i :: ws, by simp [hlen], ?_, ?_⟩
      · rw [addCWAux_step path i h, heq, List.drop_eq_getElem_cons h]
        simp only [List.cons_append, List.zipWith_cons_cons, List.flatten_cons,
          List.get_eq_getElem]
      · intro l hl
        rcases List.mem_cons.mp hl with rfl | hl
        · exact insertedAt_isWaypoint path i
        · exact hflag l hl

theorem sublist_flatten_zipWith_cons :
    ∀ (l : List RoutePoint) (ws : List (List RoutePoint)), l.length = ws.length →
      l.Sublist ((List.zipWith (fun p bl => p :: bl) l ws).flatten) := by
  intro l
  induction l with
  | nil => intro ws _; simp
  | cons p t ih =>
      intro ws hlen
      match ws with
      | [] => simp at hlen
      | b :: ws2 =>
          simp only [List.zipWith_cons_cons, List.flatten_cons, List.cons_append]
          refine List.Sublist.cons₂ p ?_
          exact (ih ws2 (by simpa using hlen)).trans
            (List.sublist_append_right b _)

/-- Claim C10: `addCorridorWaypoints` returns the input unchanged for paths
of fewer than 2 points, and otherwise interleaves each input point (all of
them, unmodified, in their original order — the input is a sublist of the
output) with a possibly empty block of points inserted between it and the
next input point, every inserted point carrying `isWaypoint = true`. -/
theorem addCorridorWaypoints_flagged_insertions (path : List RoutePoint) :
    (path.length < 2 → addCorridorWaypoints path = path) ∧
    (2 ≤ path.length →
      ∃ ws : List (List RoutePoint), ws.length + 1 = path.length ∧
        addCorridorWaypoints path =
          (List.zipWith (fun p l => p :: l) path (ws ++ [[]])).flatten ∧
        ∀ l ∈ ws, ∀ w ∈ l, w.isWaypoint = true) ∧
    path.Sublist (addCorridorWaypoints path) := by
  refine ⟨?_, ?_, ?_⟩
  · intro h
    unfold addCorridorWaypoints
    rw [if_pos h]
  · intro h
    unfold addCorridorWaypoints
    rw [if_neg (by omega)]
    obtain ⟨ws, hlen, heq, hflag⟩ :=
      addCWAux_decomposition path (path.length - 1) 0 (by omega)
    exact ⟨ws, by omega, by simpa using heq, hflag⟩
  · by_cases h : path.length < 2
    · unfold addCorridorWaypoints
      rw [if_pos h]
    · unfold addCorridorWaypoints
      rw [if_neg h]
      obtain ⟨ws, hlen, heq, -⟩ :=
        addCWAux_decomposition path (path.length - 1) 0 (by omega)
      rw [show addCWAux path 0 = (List.zipWith (fun p l => p :: l) path
        (ws ++ [[]])).flatten from by simpa using heq]
      exact sublist_flatten_zipWith_cons path (ws ++ [[]]) (by simp; omega)

/-- Claim C10, witness: the two unconditional parts instantiated on a
singleton path and on a concrete two-point path. -/
theorem addCorridorWaypoints_flagged_insertions_witness :
    addCorridorWaypoints [(⟨((0 : ℝ), (0 : ℝ)), 0, "solo", [], false, false⟩ : RoutePoint)] =
      [⟨((0 : ℝ), (0 : ℝ)), 0, "solo", [], false, false⟩] :=
  (addCorridorWaypoints_flagged_insertions
    [⟨((0 : ℝ), (0 : ℝ)), 0, "solo", [], false, false⟩]).1 (by simp)

/-! Claim C7: findRoute signals every failure with `null`. -/

theorem resolveKey_eq_none (graph : List (RoomKey × GraphNode)) (name : String)
    (h : ∀ p ∈ graph, lowerStr p.2.room.name ≠ name) : resolveKey graph name = none := by
  have key : ∀ (l : List (RoomKey × GraphNode)) (acc : Option RoomKey),
      (∀ p ∈ l, lowerStr p.2.room.name ≠ name) →
      l.foldl (fun acc p => if lowerStr p.2.room.name = name then some p.1 else acc) acc =
        acc := by
    intro l
    induction l with
    | nil => intro acc _; rfl
    | cons q t ih =>
        intro acc hq
        simp only [List.foldl_cons, if_neg (hq q (List.mem_cons_self q t))]
        exact ih acc (fun p hp => hq p (List.mem_cons_of_mem q hp))
  exact key graph none h

/-- Claim C7: `findRoute` reports every failure by returning the `null`
sentinel (in this total embedding, `none` — the code never throws): it
returns `none` when the start or end room resolves to an empty name, `none`
when no node of the constructed graph carries the start name or none carries
the end name (names absent from the features, or filtered away), and `none`
whenever the A* search itself returns `none` (open set exhausted without
reaching the goal). -/
theorem findRoute_null_cases (rooms : List Feature) (startRoom endRoom : Feature)
    (tf : Option ℚ) :
    (lowerStr (getRoomName startRoom) = "" ∨ lowerStr (getRoomName endRoom) = "" →
      findRoute rooms startRoom endRoom tf = none) ∧
    (((∀ p ∈ buildRoomGraph ((groupRoomsByName rooms).map Prod.snd) tf,
        lowerStr p.2.room.name ≠ lowerStr (getRoomName startRoom)) ∨
      (∀ p ∈ buildRoomGraph ((groupRoomsByName rooms).map Prod.snd) tf,
        lowerStr p.2.room.name ≠ lowerStr (getRoomName endRoom))) →
      findRoute rooms startRoom endRoom tf = none) ∧
    (∀ sk ek,
      resolveKey (buildRoomGraph ((groupRoomsByName rooms).map Prod.snd) tf)
        (lowerStr (getRoomName startRoom)) = some sk →
      resolveKey (buildRoomGraph ((groupRoomsByName rooms).map Prod.snd) tf)
        (lowerStr (getRoomName endRoom)) = some ek →
      aStar (buildRoomGraph ((groupRoomsByName rooms).map Prod.snd) tf) sk ek = none →
      findRoute rooms startRoom endRoom tf = none) := by
  refine ⟨?_, ?_, ?_⟩
  · intro h
    unfold findRoute
    rw [if_pos h]
  · intro h
    by_cases hnames : lowerStr (getRoomName startRoom) = "" ∨
      lowerStr (getRoomName endRoom) = ""
    · unfold findRoute
      rw [if_pos hnames]
    · simp only [findRoute, if_neg hnames]
      rcases h with h | h
      · rw [resolveKey_eq_none _ _ h]
      · rw [resolveKey_eq_none _ _ h]
        cases resolveKey (buildRoomGraph ((groupRoomsByName rooms).map Prod.snd) tf)
          (lowerStr (getRoomName startRoom)) <;> rfl
  · intro sk ek hsk hek hastar
    by_cases hnames : lowerStr (getRoomName startRoom) = "" ∨
      lowerStr (getRoomName endRoom) = ""
    · unfold findRoute
      rw [if_pos hnames]
    · simp only [findRoute, if_neg hnames]
      rw [hsk, hek]
      simp [hastar]

/-! Turn-by-turn directions generator (RoutePlanner.jsx:924-1270). -/

/-- JS `Math.atan2`, with values in `(-pi, pi]` and `atan2 0 0 = 0`. -/
def atan2 (y x : ℝ) : ℝ :=
  if 0 < x then Real.arctan (y / x)
  else if x < 0 then
    (if 0 ≤ y then Real.arctan (y / x) + Real.pi else Real.arctan (y / x) - Real.pi)
  else
    (if 0 < y then Real.pi / 2 else if y < 0 then -(Real.pi / 2) else 0)

/-- Embedding of `calculateDistance` (RoutePlanner.jsx:930-947): Haversine
distance in meters, Earth radius 6371000 m, between `[lon, lat]` pairs. -/
def calculateDistance (coord1 coord2 : Point) : ℝ :=
  let lon1 := coord1.1
  let lat1 := coord1.2
  let lon2 := coord2.1
  let lat2 := coord2.2
  let R : ℝ := 6371000
  let phi1 := lat1 * Real.pi / 180
  let phi2 := lat2 * Real.pi / 180
  let dphi := (lat2 - lat1) * Real.pi / 180
  let dlam := (lon2 - lon1) * Real.pi / 180
  let a := Real.sin (dphi / 2) * Real.sin (dphi / 2) +
    Real.cos phi1 * Real.cos phi2 * Real.sin (dlam / 2) * Real.sin (dlam / 2)
  let c := 2 * atan2 (Real.sqrt a) (Real.sqrt (1 - a))
  R * c

/-- JS `a % m` for the positive dividends produced by the bearing
normalization (for a positive dividend and positive divisor, JS `%` agrees
with this floor-based modulus). -/
def jsMod (a m : ℝ) : ℝ :=
  a - m * ⌊a / m⌋

/-- Embedding of `calculateBearing` (RoutePlanner.jsx:950-966): forward
azimuth in degrees, normalized to `[0, 360)` by `(bearing + 360) % 360`. -/
def calculateBearing (coord1 coord2 : Point) : ℝ :=
  let lon1 := coord1.1
  let lat1 := coord1.2
  let lon2 := coord2.1
  let lat2 := coord2.2
  let phi1 := lat1 * Real.pi / 180
  let phi2 := lat2 * Real.pi / 180
  let dlam := (lon2 - lon1) * Real.pi / 180
  let y := Real.sin dlam * Real.cos phi2
  let x := Real.cos phi1 * Real.sin phi2 - Real.sin phi1 * Real.cos phi2 * Real.cos dlam
  jsMod (atan2 y x * 180 / Real.pi + 360) 360

/-- Embedding of `bearingToDirection` (RoutePlanner.jsx:969-979). -/
def bearingToDirection (bearing : ℝ) : String :=
  if 337.5 ≤ bearing ∨ bearing < 22.5 then "north"
  else if 22.5 ≤ bearing ∧ bearing < 67.5 then "northeast"
  else if 67.5 ≤ bearing ∧ bearing < 112.5 then "east"
  else if 112.5 ≤ bearing ∧ bearing < 157.5 then "southeast"
  else if 157.5 ≤ bearing ∧ bearing < 202.5 then "south"
  else if 202.5 ≤ bearing ∧ bearing < 247.5 then "southwest"
  else if 247.5 ≤ bearing ∧ bearing < 292.5 then "west"
  else if 292.5 ≤ bearing ∧ bearing < 337.5 then "northwest"
  else "north"

/-- The bearing-difference normalization of `calculateTurn`
(RoutePlanner.jsx:983-987).  The two `while` loops perform at most one
adjustment each because the input bearings lie in `[0, 360)`, so their
difference lies in `(-360, 360)`. -/
def normDelta (diff : ℝ) : ℝ :=
  if 180 < diff then diff - 360 else if diff < -180 then diff + 360 else diff

/-- Embedding of `calculateTurn` (RoutePlanner.jsx:982-996). -/
def calculateTurn (bearing1 bearing2 : ℝ) : String :=
  let diff := normDelta (bearing2 - bearing1)
  let absDiff := |diff|
  if absDiff < 20 then "straight"
  else if absDiff < 60 then (if 0 < diff then "slight right" else "slight left")
  else if absDiff < 120 then (if 0 < diff then "right" else "left")
  else if absDiff < 160 then (if 0 < diff then "sharp right" else "sharp left")
  else "back"

/-- Embedding of `isStairwell` (RoutePlanner.jsx:1012-1015). -/
def isStairwell (name : String) : Bool :=
  let lower := lowerStr name
  hasSub lower "stair" || hasSub lower "escada"

/-- Embedding of `isElevator` (RoutePlanner.jsx:1017-1024). -/
def isElevator (name : String) : Bool :=
  let lower := lowerStr name
  hasSub lower "elevator" || hasSub lower "elevador" || hasSub lower "lift"

/-- Embedding of the `isCorridor` of RoutePlanner.jsx:1026-1036 (its keyword
list differs from the pathfinding module's). -/
def rpIsCorridor (name : String) : Bool :=
  let lower := lowerStr name
  hasSub lower "corridor" || hasSub lower "corredor" || hasSub lower "hallway" ||
    hasSub lower "hall" || hasSub lower "lobby" || hasSub lower "passage"

/-- One emitted navigation instruction (RoutePlanner.jsx:1051-1186);
`targetFloor`, `turn` and `icon` model the fields only some instruction
types carry. -/
structure Direction : Type where
  id : ℕ
  dtype : String
  instruction : String
  floor : ℚ
  targetFloor : Option ℚ
  distance : ℝ
  cumulativeDistance : ℝ
  location : String
  coords : Point
  turn : Option String
  icon : Option String

/-- The turn-emission step of `generateDirections` (RoutePlanner.jsx:
1106-1146): when a previous bearing exists, the turn classification is not
"straight" and over 3 units accumulated since the last emitted instruction,
append a turn instruction and reset the segment distance. -/
def turnStep (current : RoutePoint) (currentBearing : ℝ) (previousBearing : Option ℝ)
    (segmentDistance cumulativeDistance : ℝ) (acc : List Direction) :
    List Direction × ℝ :=
  match previousBearing with
  | none => (acc, segmentDistance)
  | some pb =>
      let turn := calculateTurn pb currentBearing
      if turn ≠ "straight" ∧ 3 < segmentDistance then
        let turnInstruction :=
          if turn = "back" then "Turn around"
          else if hasSub turn "slight" then "Continue " ++ turn
          else "Turn " ++ turn
        let locationContext :=
          if rpIsCorridor current.name then "" else " at " ++ current.name
        (acc ++ [⟨acc.length, "turn", turnInstruction ++ locationContext, current.floor,
          none, segmentDistance, cumulativeDistance, current.name, current.coords,
          some turn,
          some (if hasSub turn "left" then "↰"
            else if hasSub turn "right" then "↱" else "↑")⟩], 0)
      else (acc, segmentDistance)

/-- The pass-through-waypoint step of `generateDirections`
(RoutePlanner.jsx:1148-1169): for a non-corridor point that is neither the
last nor the next-to-last, with over 5 units accumulated, append a waypoint
instruction and reset the segment distance.  (The `nextBearing` the JS
computes there is never used.) -/
def waypointStep (current : RoutePoint) (after : List RoutePoint)
    (segmentDistance cumulativeDistance : ℝ) (acc : List Direction) :
    List Direction × ℝ :=
  if rpIsCorridor current.name = false ∧ 0 < after.length then
    if 2 ≤ after.length ∧ 5 < segmentDistance then
      (acc ++ [⟨acc.length, "waypoint", "Pass through " ++ current.name, current.floor,
        none, segmentDistance, cumulativeDistance, current.name, current.coords, none,
        some "📍"⟩], 0)
    else (acc, segmentDistance)
  else (acc, segmentDistance)

/-- The main loop of `generateDirections` (RoutePlanner.jsx:1062-1172),
walking consecutive pairs while tracking the cumulative distance, the
distance accumulated since the last emitted instruction, and the previous
segment bearing; returns the accumulated instructions together with the
final segment and cumulative distances for the destination record. -/
def gdAux (previous : RoutePoint) (rest : List RoutePoint)
    (cumulativeDistance segmentDistance : ℝ) (previousBearing : Option ℝ)
    (acc : List Direction) : List Direction × ℝ × ℝ :=
  match rest with
  | [] => (acc, segmentDistance, cumulativeDistance)
  | current :: after =>
      let distanceToNext := calculateDistance previous.coords current.coords
      let segmentDistance := segmentDistance + distanceToNext
      let cumulativeDistance := cumulativeDistance + distanceToNext
      if current.floor ≠ previous.floor then
        let floorChangeType :=
          if isStairwell previous.name then "stairs"
          else if isElevator previous.name then "elevator"
          else "stairs/elevator"
        let direction := if previous.floor < current.floor then "up" else "down"
        gdAux current after cumulativeDistance 0 none
          (acc ++ [⟨acc.length, "floor_change",
            "Take " ++ floorChangeType ++ " " ++ direction ++ " to Floor " ++
              toString current.floor,
            previous.floor, some current.floor, segmentDistance, cumulativeDistance,
            previous.name, previous.coords, none,
            some (if floorChangeType = "elevator" then "🛗" else "🪜")⟩])
      else
        let currentBearing := calculateBearing previous.coords current.coords
        let st1 := turnStep current currentBearing previousBearing segmentDistance
          cumulativeDistance acc
        let st2 := waypointStep current after st1.2 cumulativeDistance st1.1
        gdAux current after cumulativeDistance st2.2 (some currentBearing) st2.1

/-- Embedding of `generateDirections` (RoutePlanner.jsx:1039-1189). -/
def generateDirections (routePath : List RoutePoint) : List Direction :=
  if routePath.length < 2 then []
  else
    match routePath with
    | [] => []
    | p0 :: rest =>
        let run := gdAux p0 rest 0 0 none
          [⟨0, "start", "Start at " ++ p0.name, p0.floor, none, 0, 0, p0.name,
            p0.coords, none, none⟩]
        let lastPoint := (p0 :: rest).getLast (List.cons_ne_nil p0 rest)
        run.1 ++ [⟨run.1.length, "destination", "Arrive at " ++ lastPoint.name,
          lastPoint.floor, none, run.2.1, run.2.2, lastPoint.name, lastPoint.coords,
          none, some "🎯"⟩]

/-- Aggregate route statistics (RoutePlanner.jsx:1231-1270). -/
structure RouteStats : Type where
  totalDistance : ℝ
  estimatedTime : ℝ
  floors : List ℚ
  floorChanges : ℕ

/-- Embedding of `calculateRouteStats` (RoutePlanner.jsx:1231-1270): total
Haversine distance, estimated time at 1.4 m/s plus 30 s per floor change,
and the sorted set of visited floors (the JS `Set` keeps first-insertion
order — floors of `routePath[1..]`, then the starting floor — before the
ascending numeric sort). -/
def statsStep (acc : ℝ × List ℚ × ℕ × RoutePoint) (current : RoutePoint) :
    ℝ × List ℚ × ℕ × RoutePoint :=
  (acc.1 + calculateDistance acc.2.2.2.coords current.coords,
   (if current.floor ∈ acc.2.1 then acc.2.1 else acc.2.1 ++ [current.floor]),
   (if current.floor ≠ acc.2.2.2.floor then acc.2.2.1 + 1 else acc.2.2.1),
   current)

/-- Embedding of `calculateRouteStats` (RoutePlanner.jsx:1231-1270), the
running state folded by `statsStep`. -/
def calculateRouteStats (routePath : List RoutePoint) : RouteStats :=
  if routePath.length < 2 then ⟨0, 0, [], 0⟩
  else
    match routePath with
    | [] => ⟨0, 0, [], 0⟩
    | p0 :: rest =>
        let run := rest.foldl statsStep (0, [], 0, p0)
        let floorsSet := if p0.floor ∈ run.2.1 then run.2.1 else run.2.1 ++ [p0.floor]
        ⟨run.1, run.1 / 1.4 + run.2.2.1 * 30,
          floorsSet.mergeSort (fun a b => decide (a ≤ b)), run.2.2.1⟩

/-! Claim C9: route statistics. -/

theorem statsFold_char (rest : List RoutePoint) :
    ∀ (p0 : RoutePoint) (td : ℝ) (fs : List ℚ) (fc : ℕ),
      (rest.foldl statsStep (td, fs, fc, p0)).1 =
        td + (((p0 :: rest).zip rest).map
          (fun pr => calculateDistance pr.1.coords pr.2.coords)).sum ∧
      (rest.foldl statsStep (td, fs, fc, p0)).2.2.1 =
        fc + (((p0 :: rest).zip rest).filter
          (fun pr => decide (pr.1.floor ≠ pr.2.floor))).length ∧
      (∀ f, f ∈ (rest.foldl statsStep (td, fs, fc, p0)).2.1 ↔
        f ∈ fs ∨ f ∈ rest.map RoutePoint.floor) ∧
      (fs.Nodup → (rest.foldl statsStep (td, fs, fc, p0)).2.1.Nodup) := by
  induction rest with
  | nil =>
      intro p0 td fs fc
      refine ⟨by simp, by simp, fun f => by simp, fun h => h⟩
  | cons c after ih =>
      intro p0 td fs fc
      simp only [List.foldl_cons]
      have hstep : statsStep (td, fs, fc, p0) c =
          (td + calculateDistance p0.coords c.coords,
           (if c.floor ∈ fs then fs else fs ++ [c.floor]),
           (if c.floor ≠ p0.floor then fc + 1 else fc), c) := rfl
      rw [hstep]
      obtain ⟨ih1, ih2, ih3, ih4⟩ := ih c (td + calculateDistance p0.coords c.coords)
        (if c.floor ∈ fs then fs else fs ++ [c.floor])
        (if c.floor ≠ p0.floor then fc + 1 else fc)
      refine ⟨?_, ?_, ?_, ?_⟩
      · rw [ih1]
        simp only [List.zip_cons_cons, List.map_cons, List.sum_cons]
        ring
      · rw [ih2, List.zip_cons_cons, List.filter_cons]
        by_cases hq : c.floor = p0.floor
        · rw [if_neg (show ¬ (c.floor ≠ p0.floor) from fun hne => hne hq),
            if_neg (show ¬ ((fun pr : RoutePoint × RoutePoint =>
              decide (pr.1.floor ≠ pr.2.floor)) (p0, c) = true) from by simp [hq.symm])]
        · rw [if_pos (show c.floor ≠ p0.floor from hq),
            if_pos (show (fun pr : RoutePoint × RoutePoint =>
              decide (pr.1.floor ≠ pr.2.floor)) (p0, c) = true from by
                simp only [ne_eq, decide_eq_true_eq]
                exact fun h => hq h.symm)]
          simp only [List.length_cons]
          omega
      · intro f
        rw [ih3]
        by_cases hm : c.floor ∈ fs
        · rw [if_pos hm]
          simp only [List.map_cons, List.mem_cons]
          constructor
          · rintro (h | h)
            · exact Or.inl h
            · exact Or.inr (Or.inr h)
          · rintro (h | rfl | h)
            · exact Or.inl h
            · exact Or.inl hm
            · exact Or.inr h
        · rw [if_neg hm]
          simp only [List.mem_append, List.mem_singleton, List.map_cons, List.mem_cons]
          tauto
      · intro hnd
        apply ih4
        by_cases hm : c.floor ∈ fs
        · rwa [if_pos hm]
        · rw [if_neg hm]
          simp [List.nodup_append, hnd, hm]

/-- Claim C9: on every path of at least 2 points, `calculateRouteStats`
returns the sum of Haversine segment distances, an estimated time of
`total / 1.4` plus 30 s per floor change, the count of consecutive
floor-changing pairs, and the ascending duplicate-free list of exactly the
floors appearing in the path; and on every 2-point same-floor path whose
Haversine distance is exactly 10, the estimated time is `50/7 ≈ 7.14` s
with no floor change and `floors = [floor]`. -/
theorem calculateRouteStats_spec (routePath : List RoutePoint) :
    (2 ≤ routePath.length →
      (calculateRouteStats routePath).totalDistance =
        ((routePath.zip routePath.tail).map
          (fun pr => calculateDistance pr.1.coords pr.2.coords)).sum ∧
      ((calculateRouteStats routePath).floorChanges : ℕ) =
        ((routePath.zip routePath.tail).filter
          (fun pr => decide (pr.1.floor ≠ pr.2.floor))).length ∧
      (calculateRouteStats routePath).estimatedTime =
        (calculateRouteStats routePath).totalDistance / 1.4 +
          ((calculateRouteStats routePath).floorChanges : ℝ) * 30 ∧
      (calculateRouteStats routePath).floors.Sorted (· ≤ ·) ∧
      (calculateRouteStats routePath).floors.Nodup ∧
      (∀ f, f ∈ (calculateRouteStats routePath).floors ↔
        ∃ p ∈ routePath, p.floor = f)) ∧
    (∀ p0 p1 : RoutePoint, routePath = [p0, p1] → p0.floor = p1.floor →
      calculateDistance p0.coords p1.coords = 10 →
      (calculateRouteStats routePath).estimatedTime = 50 / 7 ∧
      |(calculateRouteStats routePath).estimatedTime - 7.14| < 1 / 100 ∧
      (calculateRouteStats routePath).floorChanges = 0 ∧
      (calculateRouteStats routePath).floors = [p0.floor]) := by
  constructor
  · intro hlen
    cases routePath with
    | nil => simp at hlen
    | cons p0 rest =>
        have hstats : calculateRouteStats (p0 :: rest) =
            ⟨(rest.foldl statsStep (0, [], 0, p0)).1,
              (rest.foldl statsStep (0, [], 0, p0)).1 / 1.4 +
                (rest.foldl statsStep (0, [], 0, p0)).2.2.1 * 30,
              (if p0.floor ∈ (rest.foldl statsStep (0, [], 0, p0)).2.1 then
                  (rest.foldl statsStep (0, [], 0, p0)).2.1
                else (rest.foldl statsStep (0, [], 0, p0)).2.1 ++ [p0.floor]).mergeSort
                  (fun a b => decide (a ≤ b)),
              (rest.foldl statsStep (0, [], 0, p0)).2.2.1⟩ := by
          unfold calculateRouteStats
          rw [if_neg (by omega)]
        obtain ⟨h1, h2, h3, h4⟩ := statsFold_char rest p0 0 [] 0
        have hmem : ∀ f, f ∈ (if p0.floor ∈ (rest.foldl statsStep (0, [], 0, p0)).2.1 then
            (rest.foldl statsStep (0, [], 0, p0)).2.1
          else (rest.foldl statsStep (0, [], 0, p0)).2.1 ++ [p0.floor]) ↔
            ∃ p ∈ p0 :: rest, p.floor = f := by
          intro f
          by_cases hm : p0.floor ∈ (rest.foldl statsStep (0, [], 0, p0)).2.1
          · rw [if_pos hm]
            rw [h3]
            constructor
            · rintro (h | h)
              · simp at h
              · rcases List.mem_map.mp h with ⟨p, hp, rfl⟩
                exact ⟨p, List.mem_cons_of_mem _ hp, rfl⟩
            · rintro ⟨p, hp, rfl⟩
              rcases List.mem_cons.mp hp with rfl | hp
              · exact (h3 p.floor).mp hm
              · exact Or.inr (List.mem_map_of_mem _ hp)
          · rw [if_neg hm]
            simp only [List.mem_append, List.mem_singleton]
            rw [h3]
            constructor
            · rintro ((h | h) | rfl)
              · simp at h
              · rcases List.mem_map.mp h with ⟨p, hp, rfl⟩
                exact ⟨p, List.mem_cons_of_mem _ hp, rfl⟩
              · exact ⟨p0, List.mem_cons_self _ _, rfl⟩
            · rintro ⟨p, hp, rfl⟩
              rcases List.mem_cons.mp hp with rfl | hp
              · exact Or.inr rfl
              · exact Or.inl (Or.inr (List.mem_map_of_mem _ hp))
        have hnodup : (if p0.floor ∈ (rest.foldl statsStep (0, [], 0, p0)).2.1 then
            (rest.foldl statsStep (0, [], 0, p0)).2.1
          else (rest.foldl statsStep (0, [], 0, p0)).2.1 ++ [p0.floor]).Nodup := by
          by_cases hm : p0.floor ∈ (rest.foldl statsStep (0, [], 0, p0)).2.1
          · rw [if_pos hm]
            exact h4 (by simp)
          · rw [if_neg hm]
            simp [List.nodup_append, h4 (by simp), hm]
        rw [hstats]
        refine ⟨by simpa using h1, by simpa using h2, by norm_num, ?_, ?_, ?_⟩
        · have hs : ((if p0.floor ∈ (rest.foldl statsStep (0, [], 0, p0)).2.1 then
              (rest.foldl statsStep (0, [], 0, p0)).2.1
            else (rest.foldl statsStep (0, [], 0, p0)).2.1 ++ [p0.floor]).mergeSort
              (fun a b => decide (a ≤ b))).Pairwise (fun a b => decide (a ≤ b) = true) :=
            @List.sorted_mergeSort ℚ (fun a b => decide (a ≤ b))
              (fun (a b c : ℚ) hab hbc =>
                decide_eq_true (le_trans (of_decide_eq_true hab) (of_decide_eq_true hbc)))
              (fun (a b : ℚ) => by
                rcases le_total a b with h | h
                · simp [h]
                · simp [h]) _
          exact hs.imp (fun h => of_decide_eq_true h)
        · exact (List.Perm.nodup_iff (List.mergeSort_perm
            (if p0.floor ∈ (rest.foldl statsStep (0, [], 0, p0)).2.1 then
              (rest.foldl statsStep (0, [], 0, p0)).2.1
            else (rest.foldl statsStep (0, [], 0, p0)).2.1 ++ [p0.floor])
            (fun a b => decide (a ≤ b)))).mpr hnodup
        · intro f
          rw [List.Perm.mem_iff (List.mergeSort_perm
            (if p0.floor ∈ (rest.foldl statsStep (0, [], 0, p0)).2.1 then
              (rest.foldl statsStep (0, [], 0, p0)).2.1
            else (rest.foldl statsStep (0, [], 0, p0)).2.1 ++ [p0.floor])
            (fun a b => decide (a ≤ b)))]
          exact hmem f
  · rintro p0 p1 rfl hf hd
    have hrun : calculateRouteStats [p0, p1] =
        ⟨calculateDistance p0.coords p1.coords,
          calculateDistance p0.coords p1.coords / 1.4 + (0 : ℕ) * 30, [p1.floor], 0⟩ := by
      unfold calculateRouteStats
      rw [if_neg (by simp : ¬ ([p0, p1] : List RoutePoint).length < 2)]
      simp only [List.foldl_cons, List.foldl_nil, statsStep]
      rw [if_neg (by simp : ¬ p1.floor ∈ ([] : List ℚ))]
      rw [if_neg (show ¬ (p1.floor ≠ p0.floor) from by simp [hf])]
      rw [if_pos (show p0.floor ∈ ([] : List ℚ) ++ [p1.floor] from by simp [hf])]
      simp [List.mergeSort]
    have he : (calculateRouteStats [p0, p1]).estimatedTime = 50 / 7 := by
      rw [hrun]
      show calculateDistance p0.coords p1.coords / 1.4 + ((0 : ℕ) : ℝ) * 30 = 50 / 7
      rw [hd]
      norm_num
    refine ⟨he, ?_, ?_, ?_⟩
    · rw [he]
      rw [show (50 : ℝ) / 7 - 7.14 = 1 / 350 from by norm_num]
      rw [abs_of_nonneg (by norm_num : (0 : ℝ) ≤ 1 / 350)]
      norm_num
    · rw [hrun]
    · rw [hrun, hf]

/-! Concrete evaluations of the Haversine distance and the bearing on
equator-aligned and meridian-aligned pairs, used by the C8 and C9
witnesses. -/

theorem haversine_core (t : ℝ) (h0 : 0 ≤ t) (h1 : t < Real.pi / 2) :
    2 * atan2 (Real.sqrt (Real.sin t * Real.sin t))
      (Real.sqrt (1 - Real.sin t * Real.sin t)) = 2 * t := by
  have hsin : 0 ≤ Real.sin t := by
    apply Real.sin_nonneg_of_nonneg_of_le_pi h0
    nlinarith [Real.pi_pos]
  have hcos : 0 < Real.cos t := by
    apply Real.cos_pos_of_mem_Ioo
    constructor
    · nlinarith [Real.pi_pos]
    · exact h1
  have hsq : 1 - Real.sin t * Real.sin t = Real.cos t * Real.cos t := by
    nlinarith [Real.sin_sq_add_cos_sq t]
  rw [Real.sqrt_mul_self hsin, hsq, Real.sqrt_mul_self (le_of_lt hcos)]
  unfold atan2
  rw [if_pos hcos, ← Real.tan_eq_sin_div_cos,
    Real.arctan_tan (by nlinarith [Real.pi_pos]) h1]

theorem calculateDistance_equator (lon1 lon2 : ℝ)
    (h0 : 0 ≤ (lon2 - lon1) * Real.pi / 360)
    (h1 : (lon2 - lon1) * Real.pi / 360 < Real.pi / 2) :
    calculateDistance (lon1, 0) (lon2, 0) =
      6371000 * ((lon2 - lon1) * Real.pi / 180) := by
  unfold calculateDistance
  simp only []
  have hz : ((0 : ℝ) - 0) * Real.pi / 180 / 2 = 0 := by ring
  have hphi : (0 : ℝ) * Real.pi / 180 = 0 := by ring
  have hdl : (lon2 - lon1) * Real.pi / 180 / 2 = (lon2 - lon1) * Real.pi / 360 := by ring
  rw [hz, hphi, Real.sin_zero, Real.cos_zero, hdl]
  have ha : (0 : ℝ) * 0 + 1 * 1 * Real.sin ((lon2 - lon1) * Real.pi / 360) *
      Real.sin ((lon2 - lon1) * Real.pi / 360) =
      Real.sin ((lon2 - lon1) * Real.pi / 360) * Real.sin ((lon2 - lon1) * Real.pi / 360) := by
    ring
  rw [ha, haversine_core _ h0 h1]
  ring

theorem calculateDistance_meridian (lon lat1 lat2 : ℝ)
    (h0 : 0 ≤ (lat2 - lat1) * Real.pi / 360)
    (h1 : (lat2 - lat1) * Real.pi / 360 < Real.pi / 2) :
    calculateDistance (lon, lat1) (lon, lat2) =
      6371000 * ((lat2 - lat1) * Real.pi / 180) := by
  unfold calculateDistance
  simp only []
  have hz : ((lon : ℝ) - lon) * Real.pi / 180 / 2 = 0 := by ring
  have hdl : (lat2 - lat1) * Real.pi / 180 / 2 = (lat2 - lat1) * Real.pi / 360 := by ring
  rw [hz, Real.sin_zero, hdl]
  have ha : Real.sin ((lat2 - lat1) * Real.pi / 360) *
      Real.sin ((lat2 - lat1) * Real.pi / 360) +
      Real.cos (lat1 * Real.pi / 180) * Real.cos (lat2 * Real.pi / 180) * 0 * 0 =
      Real.sin ((lat2 - lat1) * Real.pi / 360) * Real.sin ((lat2 - lat1) * Real.pi / 360) := by
    ring
  rw [ha, haversine_core _ h0 h1]
  ring

theorem floor_450_div_360 : ⌊(450 : ℝ) / 360⌋ = 1 := by
  apply Int.floor_eq_iff.mpr
  constructor <;> norm_num

theorem floor_360_div_360 : ⌊(360 : ℝ) / 360⌋ = 1 := by
  apply Int.floor_eq_iff.mpr
  constructor <;> norm_num

theorem calculateBearing_equator_east (lon1 lon2 : ℝ)
    (h0 : 0 < (lon2 - lon1) * Real.pi / 180) (h1 : (lon2 - lon1) * Real.pi / 180 < Real.pi) :
    calculateBearing (lon1, 0) (lon2, 0) = 90 := by
  unfold calculateBearing
  simp only []
  have hphi : (0 : ℝ) * Real.pi / 180 = 0 := by ring
  rw [hphi, Real.sin_zero, Real.cos_zero]
  have hy : 0 < Real.sin ((lon2 - lon1) * Real.pi / 180) * 1 := by
    rw [mul_one]
    exact Real.sin_pos_of_pos_of_lt_pi h0 h1
  have hx : (1 : ℝ) * 0 - 0 * 1 * Real.cos ((lon2 - lon1) * Real.pi / 180) = 0 := by ring
  rw [hx]
  unfold atan2
  rw [if_neg (lt_irrefl 0), if_neg (lt_irrefl 0), if_pos hy]
  have : Real.pi / 2 * 180 / Real.pi + 360 = 450 := by
    field_simp
    ring
  rw [this]
  unfold jsMod
  rw [floor_450_div_360]
  norm_num

theorem calculateBearing_meridian_north (lon lat1 lat2 : ℝ)
    (h0 : 0 < (lat2 - lat1) * Real.pi / 180) (h1 : (lat2 - lat1) * Real.pi / 180 < Real.pi) :
    calculateBearing (lon, lat1) (lon, lat2) = 0 := by
  unfold calculateBearing
  simp only []
  have hz : ((lon : ℝ) - lon) * Real.pi / 180 = 0 := by ring
  rw [hz, Real.sin_zero, Real.cos_zero]
  have hx : Real.cos (lat1 * Real.pi / 180) * Real.sin (lat2 * Real.pi / 180) -
      Real.sin (lat1 * Real.pi / 180) * Real.cos (lat2 * Real.pi / 180) * 1 =
      Real.sin (lat2 * Real.pi / 180 - lat1 * Real.pi / 180) := by
    rw [Real.sin_sub]
    ring
  have harg : lat2 * Real.pi / 180 - lat1 * Real.pi / 180 = (lat2 - lat1) * Real.pi / 180 := by
    ring
  have hxpos : 0 < Real.cos (lat1 * Real.pi / 180) * Real.sin (lat2 * Real.pi / 180) -
      Real.sin (lat1 * Real.pi / 180) * Real.cos (lat2 * Real.pi / 180) * 1 := by
    rw [hx, harg]
    exact Real.sin_pos_of_pos_of_lt_pi h0 h1
  have hy : (0 : ℝ) * Real.cos (lat2 * Real.pi / 180) = 0 := by ring
  rw [hy]
  unfold atan2
  rw [if_pos hxpos]
  rw [zero_div, Real.arctan_zero]
  have : (0 : ℝ) * 180 / Real.pi + 360 = 360 := by
    field_simp
  rw [this]
  unfold jsMod
  rw [floor_360_div_360]
  norm_num

/-! Claim C9, witness data: a 2-point equator path whose Haversine length is
exactly 10 meters. -/

/-- Longitude, in degrees, of a point on the equator exactly 10 m east of
the origin along the great circle. -/
def c9Lon : ℝ :=
  1800 / (6371000 * Real.pi)

/-- First point of the C9 witness path. -/
def c9P0 : RoutePoint :=
  ⟨((0 : ℝ), (0 : ℝ)), 5, "origin room", [], false, false⟩

/-- Second point of the C9 witness path, 10 m east on the equator. -/
def c9P1 : RoutePoint :=
  ⟨(c9Lon, (0 : ℝ)), 5, "east room", [], false, false⟩

theorem c9_distance_10 : calculateDistance c9P0.coords c9P1.coords = 10 := by
  have harg : (c9Lon - 0) * Real.pi / 360 = 5 / 6371000 := by
    unfold c9Lon
    field_simp
    ring
  have h := calculateDistance_equator 0 c9Lon
    (by rw [harg]; norm_num)
    (by rw [harg]; nlinarith [Real.pi_gt_three])
  have harg2 : 6371000 * ((c9Lon - 0) * Real.pi / 180) = 10 := by
    unfold c9Lon
    field_simp
    ring
  calc calculateDistance c9P0.coords c9P1.coords
      = 6371000 * ((c9Lon - 0) * Real.pi / 180) := h
    _ = 10 := harg2

/-- Claim C9, witness: the 10-meter scenario instantiated on a concrete
equator pair (floors both 5). -/
theorem calculateRouteStats_spec_witness :
    (calculateRouteStats [c9P0, c9P1]).estimatedTime = 50 / 7 ∧
    |(calculateRouteStats [c9P0, c9P1]).estimatedTime - 7.14| < 1 / 100 ∧
    (calculateRouteStats [c9P0, c9P1]).floorChanges = 0 ∧
    (calculateRouteStats [c9P0, c9P1]).floors = [c9P0.floor] :=
  (calculateRouteStats_spec [c9P0, c9P1]).2 c9P0 c9P1 rfl rfl c9_distance_10

/-! Claim C8: turn emission on a 3-point single-floor path. -/

theorem turnStep_none (c : RoutePoint) (b s cum : ℝ) (acc : List Direction) :
    turnStep c b none s cum acc = (acc, s) := rfl

theorem waypointStep_single (c x : RoutePoint) (s cum : ℝ) (acc : List Direction) :
    waypointStep c [x] s cum acc = (acc, s) := by
  unfold waypointStep
  split_ifs with h1 h2
  · exact absurd h2.1 (by simp)
  · rfl
  · rfl

theorem waypointStep_nil (c : RoutePoint) (s cum : ℝ) (acc : List Direction) :
    waypointStep c [] s cum acc = (acc, s) := by
  unfold waypointStep
  rw [if_neg (by simp)]

/-- Claim C8: on a 3-point single-floor path, a turn instruction is emitted
exactly when the bearing delta between the two segments classifies as
non-straight and the distance accumulated since the start exceeds 3 units;
any emitted turn instruction carries exactly that classification; and a
bearing delta of ±90 degrees always classifies as a plain turn
("right"/"left", not slight and not sharp). -/
theorem generateDirections_turn_3pt (p0 p1 p2 : RoutePoint)
    (hf1 : p1.floor = p0.floor) (hf2 : p2.floor = p1.floor) :
    ((generateDirections [p0, p1, p2]).filter
        (fun d => decide (d.dtype = "turn"))).length =
      (if calculateTurn (calculateBearing p0.coords p1.coords)
            (calculateBearing p1.coords p2.coords) ≠ "straight" ∧
          3 < calculateDistance p0.coords p1.coords +
            calculateDistance p1.coords p2.coords
        then 1 else 0) ∧
    (∀ d ∈ generateDirections [p0, p1, p2], d.dtype = "turn" →
      d.turn = some (calculateTurn (calculateBearing p0.coords p1.coords)
        (calculateBearing p1.coords p2.coords))) ∧
    (∀ b1 b2 : ℝ, normDelta (b2 - b1) = 90 ∨ normDelta (b2 - b1) = -90 →
      calculateTurn b1 b2 = "right" ∨ calculateTurn b1 b2 = "left") := by
  have hne1 : ¬ (p1.floor ≠ p0.floor) := by simp [hf1]
  have hne2 : ¬ (p2.floor ≠ p1.floor) := by simp [hf2]
  have hlen : ¬ ([p0, p1, p2] : List RoutePoint).length < 2 := by simp
  have hgd : generateDirections [p0, p1, p2] =
      (turnStep p2 (calculateBearing p1.coords p2.coords)
          (some (calculateBearing p0.coords p1.coords))
          (calculateDistance p0.coords p1.coords +
            calculateDistance p1.coords p2.coords)
          (calculateDistance p0.coords p1.coords +
            calculateDistance p1.coords p2.coords)
          [⟨0, "start", "Start at " ++ p0.name, p0.floor, none, 0, 0, p0.name,
            p0.coords, none, none⟩]).1 ++
        [⟨((turnStep p2 (calculateBearing p1.coords p2.coords)
            (some (calculateBearing p0.coords p1.coords))
            (calculateDistance p0.coords p1.coords +
              calculateDistance p1.coords p2.coords)
            (calculateDistance p0.coords p1.coords +
              calculateDistance p1.coords p2.coords)
            [⟨0, "start", "Start at " ++ p0.name, p0.floor, none, 0, 0, p0.name,
              p0.coords, none, none⟩]).1.length), "destination",
          "Arrive at " ++ p2.name, p2.floor, none,
          (turnStep p2 (calculateBearing p1.coords p2.coords)
            (some (calculateBearing p0.coords p1.coords))
            (calculateDistance p0.coords p1.coords +
              calculateDistance p1.coords p2.coords)
            (calculateDistance p0.coords p1.coords +
              calculateDistance p1.coords p2.coords)
            [⟨0, "start", "Start at " ++ p0.name, p0.floor, none, 0, 0, p0.name,
              p0.coords, none, none⟩]).2,
          calculateDistance p0.coords p1.coords +
            calculateDistance p1.coords p2.coords,
          p2.name, p2.coords, none, some "🎯"⟩] := by
    unfold generateDirections
    rw [if_neg hlen]
    simp only [gdAux, if_neg hne1, if_neg hne2, turnStep_none, waypointStep_single,
      waypointStep_nil, List.getLast, zero_add]
  by_cases hc : calculateTurn (calculateBearing p0.coords p1.coords)
      (calculateBearing p1.coords p2.coords) ≠ "straight" ∧
      3 < calculateDistance p0.coords p1.coords + calculateDistance p1.coords p2.coords
  · have hts : turnStep p2 (calculateBearing p1.coords p2.coords)
        (some (calculateBearing p0.coords p1.coords))
        (calculateDistance p0.coords p1.coords +
          calculateDistance p1.coords p2.coords)
        (calculateDistance p0.coords p1.coords +
          calculateDistance p1.coords p2.coords)
        [⟨0, "start", "Start at " ++ p0.name, p0.floor, none, 0, 0, p0.name,
          p0.coords, none, none⟩] =
        ([⟨0, "start", "Start at " ++ p0.name, p0.floor, none, 0, 0, p0.name,
            p0.coords, none, none⟩] ++
          [⟨1, "turn",
            (if calculateTurn (calculateBearing p0.coords p1.coords)
                (calculateBearing p1.coords p2.coords) = "back" then "Turn around"
              else if hasSub (calculateTurn (calculateBearing p0.coords p1.coords)
                (calculateBearing p1.coords p2.coords)) "slight" then
                "Continue " ++ calculateTurn (calculateBearing p0.coords p1.coords)
                  (calculateBearing p1.coords p2.coords)
              else "Turn " ++ calculateTurn (calculateBearing p0.coords p1.coords)
                (calculateBearing p1.coords p2.coords)) ++
              (if rpIsCorridor p2.name then "" else " at " ++ p2.name),
            p2.floor, none,
            calculateDistance p0.coords p1.coords +
              calculateDistance p1.coords p2.coords,
            calculateDistance p0.coords p1.coords +
              calculateDistance p1.coords p2.coords,
            p2.name, p2.coords,
            some (calculateTurn (calculateBearing p0.coords p1.coords)
              (calculateBearing p1.coords p2.coords)),
            some (if hasSub (calculateTurn (calculateBearing p0.coords p1.coords)
                (calculateBearing p1.coords p2.coords)) "left" then "↰"
              else if hasSub (calculateTurn (calculateBearing p0.coords p1.coords)
                (calculateBearing p1.coords p2.coords)) "right" then "↱"
              else "↑")⟩], 0) := by
      simp only [turnStep, List.length_singleton]
      rw [if_pos hc]
    rw [hgd, hts]
    refine ⟨?_, ?_, ?_⟩
    · rw [if_pos hc]
      simp [List.filter]
    · intro d hd hturn
      simp only [List.append_assoc, List.mem_append, List.mem_singleton] at hd
      rcases hd with hd | hd | hd
      · rw [hd] at hturn
        simp at hturn
      · rw [hd]
      · rw [hd] at hturn
        simp at hturn
    · intro b1 b2 h90
      unfold calculateTurn
      rcases h90 with h | h <;> rw [h]
      · rw [if_neg (by norm_num [abs_of_nonneg]), if_neg (by norm_num [abs_of_nonneg]),
          if_pos (by norm_num [abs_of_nonneg]), if_pos (by norm_num)]
        left
        rfl
      · rw [if_neg (by norm_num [abs_of_nonpos]), if_neg (by norm_num [abs_of_nonpos]),
          if_pos (by norm_num [abs_of_nonpos]), if_neg (by norm_num)]
        right
        rfl
  · have hts : turnStep p2 (calculateBearing p1.coords p2.coords)
        (some (calculateBearing p0.coords p1.coords))
        (calculateDistance p0.coords p1.coords +
          calculateDistance p1.coords p2.coords)
        (calculateDistance p0.coords p1.coords +
          calculateDistance p1.coords p2.coords)
        [⟨0, "start", "Start at " ++ p0.name, p0.floor, none, 0, 0, p0.name,
          p0.coords, none, none⟩] =
        ([⟨0, "start", "Start at " ++ p0.name, p0.floor, none, 0, 0, p0.name,
          p0.coords, none, none⟩],
          calculateDistance p0.coords p1.coords +
            calculateDistance p1.coords p2.coords) := by
      simp only [turnStep, List.length_singleton]
      rw [if_neg hc]
    rw [hgd, hts]
    refine ⟨?_, ?_, ?_⟩
    · rw [if_neg hc]
      simp [List.filter]
    · intro d hd hturn
      simp only [List.mem_append, List.mem_singleton] at hd
      rcases hd with hd | hd
      · rw [hd] at hturn
        simp at hturn
      · rw [hd] at hturn
        simp at hturn
    · intro b1 b2 h90
      unfold calculateTurn
      rcases h90 with h | h <;> rw [h]
      · rw [if_neg (by norm_num [abs_of_nonneg]), if_neg (by norm_num [abs_of_nonneg]),
          if_pos (by norm_num [abs_of_nonneg]), if_pos (by norm_num)]
        left
        rfl
      · rw [if_neg (by norm_num [abs_of_nonpos]), if_neg (by norm_num [abs_of_nonpos]),
          if_pos (by norm_num [abs_of_nonpos]), if_neg (by norm_num)]
        right
        rfl

/-- First point of the C8 witness path, the origin on the equator. -/
def c8P0 : RoutePoint :=
  ⟨((0 : ℝ), (0 : ℝ)), 0, "wroom a", [], false, false⟩

/-- Second point of the C8 witness path, 1/1000 degree east. -/
def c8P1 : RoutePoint :=
  ⟨((1 / 1000 : ℝ), (0 : ℝ)), 0, "wroom b", [], false, false⟩

/-- Third point of the C8 witness path, then 1/1000 degree north: a 90
degree left turn at the midpoint. -/
def c8P2 : RoutePoint :=
  ⟨((1 / 1000 : ℝ), (1 / 1000 : ℝ)), 0, "wroom c", [], false, false⟩

theorem c8_turn_left : calculateTurn 90 0 = "left" := by
  have hnd : normDelta ((0 : ℝ) - 90) = -90 := by
    unfold normDelta
    rw [if_neg (by norm_num), if_neg (by norm_num)]
    norm_num
  have habs : |(-90 : ℝ)| = 90 := by
    rw [abs_of_nonpos (by norm_num)]
    norm_num
  unfold calculateTurn
  rw [hnd]
  simp only [habs]
  norm_num

theorem c8_bearing1 : calculateBearing c8P0.coords c8P1.coords = 90 := by
  have h := calculateBearing_equator_east 0 (1 / 1000)
    (by positivity)
    (by nlinarith [Real.pi_gt_three, Real.pi_pos])
  exact h

theorem c8_bearing2 : calculateBearing c8P1.coords c8P2.coords = 0 := by
  have h := calculateBearing_meridian_north (1 / 1000) 0 (1 / 1000)
    (by positivity)
    (by nlinarith [Real.pi_gt_three, Real.pi_pos])
  exact h

theorem c8_dsum : 3 < calculateDistance c8P0.coords c8P1.coords +
    calculateDistance c8P1.coords c8P2.coords := by
  have h1 := calculateDistance_equator 0 (1 / 1000)
    (by positivity)
    (by nlinarith [Real.pi_gt_three, Real.pi_pos])
  have h2 := calculateDistance_meridian (1 / 1000) 0 (1 / 1000)
    (by positivity)
    (by nlinarith [Real.pi_gt_three, Real.pi_pos])
  have e1 : calculateDistance c8P0.coords c8P1.coords =
      6371000 * ((1 / 1000 - 0) * Real.pi / 180) := h1
  have e2 : calculateDistance c8P1.coords c8P2.coords =
      6371000 * ((1 / 1000 - 0) * Real.pi / 180) := h2
  rw [e1, e2]
  nlinarith [Real.pi_gt_three]

/-- Claim C8, witness: on the concrete equator path east-then-north (a 90
degree direction change at the midpoint, segments about 111 m each), exactly
one turn instruction is emitted and it is classified as the plain turn
"left". -/
theorem generateDirections_turn_3pt_witness :
    ((generateDirections [c8P0, c8P1, c8P2]).filter
        (fun d => decide (d.dtype = "turn"))).length = 1 ∧
    calculateTurn (calculateBearing c8P0.coords c8P1.coords)
      (calculateBearing c8P1.coords c8P2.coords) = "left" := by
  have main := generateDirections_turn_3pt c8P0 c8P1 c8P2 rfl rfl
  have hturn : calculateTurn (calculateBearing c8P0.coords c8P1.coords)
      (calculateBearing c8P1.coords c8P2.coords) = "left" := by
    rw [c8_bearing1, c8_bearing2, c8_turn_left]
  constructor
  · rw [main.1, if_pos ⟨by rw [hturn]; decide, c8_dsum⟩]
  · exact hturn

/-! Claim C1: A* optimality.  Paths of a graph, their costs, and the
machinery for the A* loop invariant. -/

/-- One edge of the room graph: `u` is a node of the graph and one of its
adjacency-list entries points at `v` with weight `w`. -/
def IsStep (graph : List (RoomKey × GraphNode)) (u v : RoomKey) (w : ℝ) : Prop :=
  ∃ node nb, alookup graph u = some node ∧ nb ∈ node.neighbors ∧
    nb.key = v ∧ nb.distance = w

/-- `Reach graph s k c`: there is a path in `graph` from `s` to `k` of total
edge weight `c`. -/
inductive Reach (graph : List (RoomKey × GraphNode)) (s : RoomKey) :
    RoomKey → ℝ → Prop
  | refl : Reach graph s s 0
  | tail {v x : RoomKey} {c w : ℝ} :
      Reach graph s v c → IsStep graph v x w → Reach graph s x (c + w)

/-- The total edge weight of a concrete key list read as a path of the
graph: each consecutive pair is an edge and `c` sums the weights. -/
inductive KeyListCost (graph : List (RoomKey × GraphNode)) :
    List RoomKey → ℝ → Prop
  | single (u : RoomKey) : KeyListCost graph [u] 0
  | cons {u v : RoomKey} {rest : List RoomKey} {w c : ℝ} :
      IsStep graph u v w → KeyListCost graph (v :: rest) c →
      KeyListCost graph (u :: v :: rest) (w + c)

/-- `CfChainL graph s cf k ks c`: following `cameFrom` backwards from `k`
reaches `s`, the visited keys in path order are `ks`, and the edges walked
sum to `c`. -/
inductive CfChainL (graph : List (RoomKey × GraphNode)) (s : RoomKey)
    (cf : RoomKey → Option RoomKey) : RoomKey → List RoomKey → ℝ → Prop
  | base : CfChainL graph s cf s [s] 0
  | step {p k : RoomKey} {w c : ℝ} {ks : List RoomKey} :
      cf k = some p → IsStep graph p k w → CfChainL graph s cf p ks c →
      CfChainL graph s cf k (ks ++ [k]) (c + w)

theorem distance_self (p : Point) : distance p p = 0 := by
  simp [distance]

theorem distance_nonneg (p q : Point) : 0 ≤ distance p q :=
  Real.sqrt_nonneg _

theorem distance_eq_complex_abs (p q : Point) :
    distance p q = Complex.abs ⟨p.1 - q.1, p.2 - q.2⟩ := by
  rw [Complex.abs_apply, Complex.normSq_mk, distance]

theorem distance_triangle (p q r : Point) :
    distance p r ≤ distance p q + distance q r := by
  rw [distance_eq_complex_abs, distance_eq_complex_abs, distance_eq_complex_abs]
  have h : (⟨p.1 - r.1, p.2 - r.2⟩ : ℂ) =
      (⟨p.1 - q.1, p.2 - q.2⟩ : ℂ) + (⟨q.1 - r.1, q.2 - r.2⟩ : ℂ) := by
    apply Complex.ext <;> simp
  rw [h]
  exact Complex.abs.add_le _ _

theorem alookup_mem {α : Type _} {l : List (RoomKey × α)} {k : RoomKey} {v : α}
    (h : alookup l k = some v) : (k, v) ∈ l := by
  induction l with
  | nil => simp [alookup] at h
  | cons hd t ih =>
      rw [alookup] at h
      by_cases hk : k = hd.1
      · rw [if_pos hk] at h
        have hv : v = hd.2 := (Option.some_inj.mp h).symm
        rw [hk, hv, Prod.mk.eta]
        exact List.mem_cons_self _ _
      · rw [if_neg hk] at h
        exact List.mem_cons_of_mem _ (ih h)

/-- The hypothesis of claim C1 on a graph: every edge weight is at least the
Euclidean centroid distance between its endpoints. -/
def AdmissibleWeights (graph : List (RoomKey × GraphNode)) : Prop :=
  ∀ q ∈ graph, ∀ nb ∈ q.2.neighbors, ∀ tn, alookup graph nb.key = some tn →
    distance q.2.centroid tn.centroid ≤ nb.distance

theorem isStep_weight_le {graph : List (RoomKey × GraphNode)}
    (hw : AdmissibleWeights graph) {u v : RoomKey} {w : ℝ}
    (hstep : IsStep graph u v w) {nu nv : GraphNode}
    (hu : alookup graph u = some nu) (hv : alookup graph v = some nv) :
    distance nu.centroid nv.centroid ≤ w := by
  obtain ⟨node, nb, hnode, hnb, hkey, hdist⟩ := hstep
  have hne : node = nu := by rw [hnode] at hu; exact Option.some_inj.mp hu
  subst hne
  rw [← hdist]
  exact hw (u, node) (alookup_mem hnode) nb hnb nv (by rw [hkey]; exact hv)

theorem reach_cost_lower {graph : List (RoomKey × GraphNode)}
    (hw : AdmissibleWeights graph) {s k : RoomKey} {c : ℝ}
    (h : Reach graph s k c) :
    ∀ ns nk, alookup graph s = some ns → alookup graph k = some nk →
      distance ns.centroid nk.centroid ≤ c := by
  induction h with
  | refl =>
      intro ns nk hs hk
      have : ns = nk := by rw [hs] at hk; exact Option.some_inj.mp hk
      rw [this, distance_self nk.centroid]
  | tail hr hstep ih =>
      intro ns nk hs hk
      obtain ⟨node, nb, hnode, hnb, hkey, hdist⟩ := hstep
      calc distance ns.centroid nk.centroid
          ≤ distance ns.centroid node.centroid + distance node.centroid nk.centroid :=
            distance_triangle _ _ _
        _ ≤ _ := by
            have h1 := ih ns node hs hnode
            have h2 := isStep_weight_le hw ⟨node, nb, hnode, hnb, hkey, hdist⟩ hnode hk
            exact add_le_add h1 h2

theorem reach_cost_nonneg {graph : List (RoomKey × GraphNode)}
    (hw : AdmissibleWeights graph) {s k : RoomKey} {c : ℝ}
    (h : Reach graph s k c) {ns nk : GraphNode}
    (hs : alookup graph s = some ns) (hk : alookup graph k = some nk) : 0 ≤ c :=
  le_trans (distance_nonneg _ _) (reach_cost_lower hw h ns nk hs hk)

theorem cfChainL_reach {graph : List (RoomKey × GraphNode)} {s : RoomKey}
    {cf : RoomKey → Option RoomKey} {k : RoomKey} {ks : List RoomKey} {c : ℝ}
    (h : CfChainL graph s cf k ks c) : Reach graph s k c := by
  induction h with
  | base => exact Reach.refl
  | step hcf hstep hchain ih => exact Reach.tail ih hstep

theorem cfChainL_ne_nil_head {graph : List (RoomKey × GraphNode)} {s : RoomKey}
    {cf : RoomKey → Option RoomKey} {k : RoomKey} {ks : List RoomKey} {c : ℝ}
    (h : CfChainL graph s cf k ks c) : ks ≠ [] ∧ ks.head? = some s := by
  induction h with
  | base => exact ⟨by simp, rfl⟩
  | step hcf hstep hchain ih =>
      rename_i p k0 w c0 ks0
      refine ⟨by simp, ?_⟩
      obtain ⟨hne, hhead⟩ := ih
      cases ks0 with
      | nil => exact absurd rfl hne
      | cons a t => simpa using hhead

theorem cfChainL_last {graph : List (RoomKey × GraphNode)} {s : RoomKey}
    {cf : RoomKey → Option RoomKey} {k : RoomKey} {ks : List RoomKey} {c : ℝ}
    (h : CfChainL graph s cf k ks c) : ks.getLast? = some k := by
  induction h with
  | base => rfl
  | step hcf hstep hchain ih => simp [List.getLast?_concat]

theorem keyListCost_snoc {graph : List (RoomKey × GraphNode)}
    {ks : List RoomKey} {c : ℝ} (h : KeyListCost graph ks c) :
    ∀ u v w, ks.getLast? = some u → IsStep graph u v w →
      KeyListCost graph (ks ++ [v]) (c + w) := by
  induction h with
  | single u0 =>
      intro u v w hlast hstep
      have hu : u = u0 := by simpa using hlast.symm
      subst hu
      have := KeyListCost.cons hstep (@KeyListCost.single graph v)
      simpa using this
  | cons hstep0 hrest ih =>
      intro u v w hlast hstep
      rename_i u0 v0 rest w0 c0
      have hlast2 : (v0 :: rest).getLast? = some u := by
        rw [List.getLast?_cons_cons] at hlast
        exact hlast
      have := KeyListCost.cons hstep0 (ih u v w hlast2 hstep)
      rw [show w0 + c0 + w = w0 + (c0 + w) from add_assoc _ _ _]
      simpa using this

theorem cfChainL_cost {graph : List (RoomKey × GraphNode)} {s : RoomKey}
    {cf : RoomKey → Option RoomKey} {k : RoomKey} {ks : List RoomKey} {c : ℝ}
    (h : CfChainL graph s cf k ks c) : KeyListCost graph ks c := by
  induction h with
  | base => exact KeyListCost.single s
  | step hcf hstep hchain ih =>
      exact keyListCost_snoc ih _ _ _ (cfChainL_last hchain) hstep

theorem cfChainL_nodes {graph : List (RoomKey × GraphNode)} {s : RoomKey}
    {cf : RoomKey → Option RoomKey} {k : RoomKey} {ks : List RoomKey} {c : ℝ}
    (h : CfChainL graph s cf k ks c) (closed : List RoomKey)
    (hcf : ∀ x p, cf x = some p → p ∈ closed) :
    ∀ x ∈ ks, x = k ∨ x ∈ closed ∨ x = s := by
  induction h with
  | base =>
      intro x hx
      right; right
      simpa using hx
  | step hcfk hstep hchain ih =>
      intro x hx
      rcases List.mem_append.mp hx with hx1 | hx2
      · rcases ih x hx1 with rfl | h2
        · right; left
          exact hcf _ _ hcfk
        · right; exact h2
      · left
        simpa using hx2

theorem cfChainL_congr {graph : List (RoomKey × GraphNode)} {s : RoomKey}
    {cf cf2 : RoomKey → Option RoomKey} {k : RoomKey} {ks : List RoomKey} {c : ℝ}
    (h : CfChainL graph s cf k ks c) (hagree : ∀ x ∈ ks, cf2 x = cf x) :
    CfChainL graph s cf2 k ks c := by
  induction h with
  | base => exact CfChainL.base
  | step hcfk hstep hchain ih =>
      refine CfChainL.step ?_ hstep (ih ?_)
      · rw [hagree _ (by simp), hcfk]
      · intro x hx
        exact hagree x (List.mem_append.mpr (Or.inl hx))

theorem reconstruct_eq_chain {graph : List (RoomKey × GraphNode)} {s : RoomKey}
    {cf : RoomKey → Option RoomKey} {k : RoomKey} {ks : List RoomKey} {c : ℝ}
    (h : CfChainL graph s cf k ks c) (hs : cf s = none) :
    ∀ fuel, ks.length ≤ fuel + 1 → reconstruct cf fuel k = ks := by
  induction h with
  | base =>
      intro fuel hlen
      cases fuel with
      | zero => rfl
      | succ n => simp [reconstruct, hs]
  | step hcfk hstep hchain ih =>
      rename_i p k0 w c0 ks0
      intro fuel hlen
      cases fuel with
      | zero =>
          rw [List.length_append, List.length_singleton] at hlen
          have : ks0 = [] := List.length_eq_zero.mp (by omega)
          exact absurd this (cfChainL_ne_nil_head hchain).1
      | succ n =>
          rw [reconstruct, hcfk]
          show reconstruct cf n p ++ [k0] = ks0 ++ [k0]
          rw [ih n (by
            rw [List.length_append, List.length_singleton] at hlen
            omega)]

/-! The open-set scan `pickCurrent`: the chosen key is an open key and its
finite f-score is minimal among the finite f-scores of open keys. -/

/-- The body of the open-set scan fold, named so its equations can be
stated. -/
def pickStep (fs : RoomKey → Option ℝ) (acc : Option RoomKey × Option ℝ)
    (k : RoomKey) : Option RoomKey × Option ℝ :=
  match getF fs k with
  | none => acc
  | some fv =>
      match acc.2 with
      | none => (some k, some fv)
      | some lf => if fv < lf then (some k, some fv) else acc

theorem pickCurrent_eq_foldl (fs : RoomKey → Option ℝ) (l : List RoomKey) :
    pickCurrent fs l = (l.foldl (pickStep fs) (none, none)).1 := rfl

theorem pickStep_none {fs : RoomKey → Option ℝ} {k : RoomKey}
    (acc : Option RoomKey × Option ℝ) (hgf : getF fs k = none) :
    pickStep fs acc k = acc := by
  simp [pickStep, hgf]

theorem pickStep_fresh {fs : RoomKey → Option ℝ} {k : RoomKey} {fv : ℝ}
    (acc : Option RoomKey × Option ℝ) (hgf : getF fs k = some fv)
    (h2 : acc.2 = none) : pickStep fs acc k = (some k, some fv) := by
  simp [pickStep, hgf, h2]

theorem pickStep_lt {fs : RoomKey → Option ℝ} {k : RoomKey} {fv lf : ℝ}
    (acc : Option RoomKey × Option ℝ) (hgf : getF fs k = some fv)
    (h2 : acc.2 = some lf) (hlt : fv < lf) :
    pickStep fs acc k = (some k, some fv) := by
  simp [pickStep, hgf, h2, hlt]

theorem pickStep_keep {fs : RoomKey → Option ℝ} {k : RoomKey} {fv lf : ℝ}
    (acc : Option RoomKey × Option ℝ) (hgf : getF fs k = some fv)
    (h2 : acc.2 = some lf) (hge : ¬ fv < lf) : pickStep fs acc k = acc := by
  simp [pickStep, hgf, h2, hge]

theorem pickFold_spec (fs : RoomKey → Option ℝ) :
    ∀ (l : List RoomKey) (acc : Option RoomKey × Option ℝ),
      (acc = (none, none) ∨ ∃ cu fv, acc = (some cu, some fv) ∧ getF fs cu = some fv) →
      ((l.foldl (pickStep fs) acc = (none, none) ∨
          ∃ cu fv, l.foldl (pickStep fs) acc = (some cu, some fv) ∧
            getF fs cu = some fv) ∧
       (∀ k ∈ l, ∀ fk, getF fs k = some fk →
          ∃ cu fv, l.foldl (pickStep fs) acc = (some cu, some fv) ∧ fv ≤ fk) ∧
       (∀ cu0 fv0, acc = (some cu0, some fv0) →
          ∃ cu fv, l.foldl (pickStep fs) acc = (some cu, some fv) ∧ fv ≤ fv0) ∧
       (∀ cu, (l.foldl (pickStep fs) acc).1 = some cu → acc.1 = some cu ∨ cu ∈ l)) := by
  intro l
  induction l with
  | nil =>
      intro acc hacc
      refine ⟨hacc, by simp, ?_, ?_⟩
      · intro cu0 fv0 h0
        exact ⟨cu0, fv0, h0, le_refl _⟩
      · intro cu hcu
        exact Or.inl hcu
  | cons k t ih =>
      intro acc hacc
      rw [List.foldl_cons]
      cases hgf : getF fs k with
      | none =>
          rw [pickStep_none acc hgf]
          obtain ⟨hA, hB, hC, hD⟩ := ih acc hacc
          refine ⟨hA, ?_, hC, ?_⟩
          · intro k2 hk2 fk hfk
            rcases List.mem_cons.mp hk2 with rfl | hk2t
            · rw [hgf] at hfk; cases hfk
            · exact hB k2 hk2t fk hfk
          · intro cu hcu
            rcases hD cu hcu with h1 | h2
            · exact Or.inl h1
            · exact Or.inr (List.mem_cons_of_mem _ h2)
      | some fv =>
          rcases hacc with hnn | ⟨cu0, fv0, haeq, hgcu0⟩
          · subst hnn
            rw [pickStep_fresh _ hgf rfl]
            obtain ⟨hA, hB, hC, hD⟩ := ih (some k, some fv)
              (Or.inr ⟨k, fv, rfl, hgf⟩)
            refine ⟨hA, ?_, by simp, ?_⟩
            · intro k2 hk2 fk hfk
              rcases List.mem_cons.mp hk2 with hk2e | hk2t
              · rw [hk2e] at hfk
                have hfveq : fk = fv := by rw [hgf] at hfk; exact (Option.some_inj.mp hfk).symm
                obtain ⟨cu, fv2, hres, hle⟩ := hC k fv rfl
                exact ⟨cu, fv2, hres, by rw [hfveq]; exact hle⟩
              · exact hB k2 hk2t fk hfk
            · intro cu hcu
              rcases hD cu hcu with h1 | h2
              · exact Or.inr (List.mem_cons.mpr (Or.inl (Option.some_inj.mp h1).symm))
              · exact Or.inr (List.mem_cons_of_mem _ h2)
          · subst haeq
            by_cases hlt : fv < fv0
            · rw [pickStep_lt _ hgf rfl hlt]
              obtain ⟨hA, hB, hC, hD⟩ := ih (some k, some fv)
                (Or.inr ⟨k, fv, rfl, hgf⟩)
              refine ⟨hA, ?_, ?_, ?_⟩
              · intro k2 hk2 fk hfk
                rcases List.mem_cons.mp hk2 with hk2e | hk2t
                · rw [hk2e] at hfk
                  have hfveq : fk = fv := by rw [hgf] at hfk; exact (Option.some_inj.mp hfk).symm
                  obtain ⟨cu, fv2, hres, hle⟩ := hC k fv rfl
                  exact ⟨cu, fv2, hres, by rw [hfveq]; exact hle⟩
                · exact hB k2 hk2t fk hfk
              · intro cu1 fv1 heq1
                have he2 : (some fv0 : Option ℝ) = some fv1 := congrArg Prod.snd heq1
                obtain ⟨cu, fv2, hres, hle⟩ := hC k fv rfl
                refine ⟨cu, fv2, hres, ?_⟩
                rw [← Option.some_inj.mp he2]
                exact le_trans hle (le_of_lt hlt)
              · intro cu hcu
                rcases hD cu hcu with h1 | h2
                · exact Or.inr (List.mem_cons.mpr (Or.inl (Option.some_inj.mp h1).symm))
                · exact Or.inr (List.mem_cons_of_mem _ h2)
            · rw [pickStep_keep _ hgf rfl hlt]
              obtain ⟨hA, hB, hC, hD⟩ := ih (some cu0, some fv0)
                (Or.inr ⟨cu0, fv0, rfl, hgcu0⟩)
              refine ⟨hA, ?_, hC, ?_⟩
              · intro k2 hk2 fk hfk
                rcases List.mem_cons.mp hk2 with hk2e | hk2t
                · rw [hk2e] at hfk
                  have hfveq : fk = fv := by rw [hgf] at hfk; exact (Option.some_inj.mp hfk).symm
                  obtain ⟨cu, fv2, hres, hle⟩ := hC cu0 fv0 rfl
                  refine ⟨cu, fv2, hres, ?_⟩
                  rw [hfveq]
                  exact le_trans hle (not_lt.mp hlt)
                · exact hB k2 hk2t fk hfk
              · intro cu hcu
                rcases hD cu hcu with h1 | h2
                · exact Or.inl h1
                · exact Or.inr (List.mem_cons_of_mem _ h2)

theorem pickCurrent_spec {fs : RoomKey → Option ℝ} {l : List RoomKey}
    {cur : RoomKey} (h : pickCurrent fs l = some cur) :
    cur ∈ l ∧ ∃ fv, getF fs cur = some fv ∧
      ∀ k ∈ l, ∀ fk, getF fs k = some fk → fv ≤ fk := by
  obtain ⟨hA, hB, hC, hD⟩ := pickFold_spec fs l (none, none) (Or.inl rfl)
  rw [pickCurrent_eq_foldl] at h
  constructor
  · rcases hD cur h with h1 | h2
    · cases h1
    · exact h2
  · rcases hA with hnn | ⟨cu, fv, hres, hgcu⟩
    · rw [hnn] at h; cases h
    · have hcu : cu = cur := by
        rw [hres] at h
        exact Option.some_inj.mp h
      subst hcu
      refine ⟨fv, hgcu, ?_⟩
      intro k hk fk hfk
      obtain ⟨cu2, fv2, hres2, hle2⟩ := hB k hk fk hfk
      rw [hres] at hres2
      have he2 : (some fv : Option ℝ) = some fv2 := congrArg Prod.snd hres2
      rw [Option.some_inj.mp he2]
      exact hle2

/-! The A* loop invariant. -/

/-- A relaxed edge out of a node with g-score `gu`: the target, when it is a
graph node and not yet closed, has a recorded g-score no worse than `gu`
plus the edge weight. -/
def RelaxedAt (graph : List (RoomKey × GraphNode)) (st : AStarState)
    (gu : ℝ) (nb : Neighbor) : Prop :=
  (alookup graph nb.key).isSome → nb.key ∉ st.closedSet →
    ∃ gv, st.gScore nb.key = some gv ∧ gv ≤ gu + nb.distance

/-- Every outgoing edge of every closed node is relaxed. -/
def ClosedRelaxed (graph : List (RoomKey × GraphNode)) (st : AStarState) : Prop :=
  ∀ u ∈ st.closedSet, ∀ gu, st.gScore u = some gu →
    ∀ nu, alookup graph u = some nu → ∀ nb ∈ nu.neighbors, RelaxedAt graph st gu nb

/-- The A* loop invariant apart from edge relaxation: the open and closed
sets hold graph keys and are disjoint, the start bookkeeping is fixed,
f-scores are g-scores plus the heuristic, every graph key with a g-score is
open or closed and its `cameFrom` chain realises a path from the start of
cost at most that g-score, `cameFrom` points into the closed set, and closed
g-scores are optimal. -/
structure AInvBase (graph : List (RoomKey × GraphNode)) (startKey : RoomKey)
    (endNode : GraphNode) (st : AStarState) : Prop where
  open_graph : ∀ k ∈ st.openSet, (alookup graph k).isSome
  open_nodup : st.openSet.Nodup
  open_closed : ∀ k ∈ st.openSet, k ∉ st.closedSet
  closed_graph : ∀ k ∈ st.closedSet, (alookup graph k).isSome
  closed_g : ∀ k ∈ st.closedSet, ∃ gv, st.gScore k = some gv
  g_start : st.gScore startKey = some 0
  cf_start : st.cameFrom startKey = none
  cf_closed : ∀ k p, st.cameFrom k = some p → p ∈ st.closedSet
  open_f : ∀ k ∈ st.openSet, ∃ fv, st.fScore k = some fv
  f_val : ∀ k fv, st.fScore k = some fv → ∃ gv nk, st.gScore k = some gv ∧
    alookup graph k = some nk ∧ fv = gv + distance nk.centroid endNode.centroid
  g_mem : ∀ k, (alookup graph k).isSome → ∀ gv, st.gScore k = some gv →
    k ∈ st.openSet ∨ k ∈ st.closedSet
  chain : ∀ k, (alookup graph k).isSome → ∀ gv, st.gScore k = some gv →
    ∃ ks c, CfChainL graph startKey st.cameFrom k ks c ∧ c ≤ gv ∧ ks.Nodup

theorem getF_of_pos {fs : RoomKey → Option ℝ} {k : RoomKey} {fv : ℝ}
    (hfv : fs k = some fv) (hpos : 0 < fv) : getF fs k = some fv := by
  simp [getF, hfv, ne_of_gt hpos]

/-- Every open node's stored f-score is at least the start-to-goal
heuristic, so when the latter is positive the `|| Infinity` quirk does not
hide any open node. -/
theorem open_f_lower {graph : List (RoomKey × GraphNode)} {startKey : RoomKey}
    {endNode startNode : GraphNode} {st : AStarState}
    (hw : AdmissibleWeights graph) (hstart : alookup graph startKey = some startNode)
    (hB : AInvBase graph startKey endNode st)
    {k : RoomKey} (hk : k ∈ st.openSet) :
    ∃ fv, st.fScore k = some fv ∧
      distance startNode.centroid endNode.centroid ≤ fv := by
  obtain ⟨fv, hfv⟩ := hB.open_f k hk
  obtain ⟨gv, nk, hgv, hnk, hfe⟩ := hB.f_val k fv hfv
  obtain ⟨ks, c, hchain, hcle, hnd⟩ := hB.chain k (by rw [hnk]; rfl) gv hgv
  have hlow := reach_cost_lower hw (cfChainL_reach hchain) startNode nk hstart hnk
  refine ⟨fv, hfv, ?_⟩
  have htri := distance_triangle startNode.centroid nk.centroid endNode.centroid
  have hgvlow : distance startNode.centroid nk.centroid ≤ gv := le_trans hlow hcle
  rw [hfe]
  linarith

/-- Closed g-scores are optimal, by the frontier argument: along any path
from the start to a node outside the closed set there is an open node whose
g-score plus heuristic is bounded by the path cost plus the endpoint's
heuristic. -/
def ClosedOpt (graph : List (RoomKey × GraphNode)) (startKey : RoomKey)
    (st : AStarState) : Prop :=
  ∀ k ∈ st.closedSet, ∀ gv, st.gScore k = some gv →
    ∀ c, Reach graph startKey k c → gv ≤ c

theorem front_lemma {graph : List (RoomKey × GraphNode)} {startKey : RoomKey}
    {endNode startNode : GraphNode} {st : AStarState}
    (hw : AdmissibleWeights graph) (hstart : alookup graph startKey = some startNode)
    (hB : AInvBase graph startKey endNode st) (hCO : ClosedOpt graph startKey st)
    (hCR : ClosedRelaxed graph st)
    {z : RoomKey} {c : ℝ} (hreach : Reach graph startKey z c) :
    ∀ nz, alookup graph z = some nz → z ∉ st.closedSet →
      ∃ k ∈ st.openSet, ∃ gk nk, st.gScore k = some gk ∧ alookup graph k = some nk ∧
        gk + distance nk.centroid endNode.centroid ≤
          c + distance nz.centroid endNode.centroid := by
  induction hreach with
  | refl =>
      intro nz hz hnc
      have hmem := hB.g_mem startKey (by rw [hstart]; rfl) 0 hB.g_start
      rcases hmem with hop | hcl
      · exact ⟨startKey, hop, 0, nz, hB.g_start, hz, by simp⟩
      · exact absurd hcl hnc
  | tail hr hstep ih =>
      rename_i v x c0 w
      intro nz hz hnc
      obtain ⟨nodev, nb, hnodev, hnb, hkey, hdist⟩ := hstep
      by_cases hvc : v ∈ st.closedSet
      · obtain ⟨gv, hgv⟩ := hB.closed_g v hvc
        have hgvle : gv ≤ c0 := hCO v hvc gv hgv c0 hr
        have hrel := hCR v hvc gv hgv nodev hnodev nb hnb
        have hxg : (alookup graph nb.key).isSome := by rw [hkey, hz]; rfl
        have hxnc : nb.key ∉ st.closedSet := by rw [hkey]; exact hnc
        obtain ⟨gx, hgx, hgxle⟩ := hrel hxg hxnc
        have hgx2 : st.gScore x = some gx := by rw [← hkey]; exact hgx
        have hxopen : x ∈ st.openSet := by
          rcases hB.g_mem x (by rw [hz]; rfl) gx hgx2 with h1 | h2
          · exact h1
          · exact absurd h2 hnc
        refine ⟨x, hxopen, gx, nz, hgx2, hz, ?_⟩
        have hxle : gx ≤ c0 + w := by
          rw [← hdist]
          calc gx ≤ gv + nb.distance := hgxle
            _ ≤ c0 + nb.distance := by linarith
        linarith
      · obtain ⟨k, hkop, gk, nk, hgk, hnk, hle⟩ := ih nodev hnodev hvc
        refine ⟨k, hkop, gk, nk, hgk, hnk, ?_⟩
        have htri := distance_triangle nodev.centroid nz.centroid endNode.centroid
        have hwge : distance nodev.centroid nz.centroid ≤ w :=
          isStep_weight_le hw ⟨nodev, nb, hnodev, hnb, hkey, hdist⟩ hnodev hz
        linarith

/-- The key popped by the open-set scan has an optimal g-score (consistency
of the heuristic, from the triangle inequality and the weight hypothesis,
plus the frontier lemma). -/
theorem pop_optimal {graph : List (RoomKey × GraphNode)} {startKey : RoomKey}
    {endNode startNode : GraphNode} {st : AStarState}
    (hw : AdmissibleWeights graph) (hstart : alookup graph startKey = some startNode)
    (hH : 0 < distance startNode.centroid endNode.centroid)
    (hB : AInvBase graph startKey endNode st) (hCO : ClosedOpt graph startKey st)
    (hCR : ClosedRelaxed graph st)
    {cur : RoomKey} (hpick : pickCurrent st.fScore st.openSet = some cur)
    {gcur : ℝ} (hgcur : st.gScore cur = some gcur) :
    ∀ c, Reach graph startKey cur c → gcur ≤ c := by
  intro c hreach
  obtain ⟨hcurop, fvc, hgetc, hmin⟩ := pickCurrent_spec hpick
  obtain ⟨fv, hfv, hfge⟩ := open_f_lower hw hstart hB hcurop
  have hget2 : getF st.fScore cur = some fv := getF_of_pos hfv (lt_of_lt_of_le hH hfge)
  have hfveq : fvc = fv := by rw [hget2] at hgetc; exact (Option.some_inj.mp hgetc).symm
  obtain ⟨gv, ncur, hgv, hncur, hfe⟩ := hB.f_val cur fv hfv
  have hgveq : gv = gcur := by rw [hgcur] at hgv; exact (Option.some_inj.mp hgv).symm
  have hcurnc : cur ∉ st.closedSet := hB.open_closed cur hcurop
  obtain ⟨k, hkop, gk, nk, hgk, hnk, hle⟩ :=
    front_lemma hw hstart hB hCO hCR hreach ncur hncur hcurnc
  obtain ⟨fk, hfk, hfkge⟩ := open_f_lower hw hstart hB hkop
  have hgetk : getF st.fScore k = some fk := getF_of_pos hfk (lt_of_lt_of_le hH hfkge)
  obtain ⟨gk2, nk2, hgk2, hnk2, hfke⟩ := hB.f_val k fk hfk
  have hgk2e : gk2 = gk := by rw [hgk] at hgk2; exact (Option.some_inj.mp hgk2).symm
  have hnk2e : nk2 = nk := by rw [hnk] at hnk2; exact (Option.some_inj.mp hnk2).symm
  have hminl := hmin k hkop fk hgetk
  rw [hfveq] at hminl
  have e1 : fv = gcur + distance ncur.centroid endNode.centroid := by
    rw [hfe, hgveq]
  have e2 : fk = gk + distance nk.centroid endNode.centroid := by
    rw [hfke, hgk2e, hnk2e]
  rw [e1, e2] at hminl
  linarith

/-! Preservation of the invariant through edge relaxation. -/

theorem fupd_self {α : Type _} (m : RoomKey → Option α) (k : RoomKey) (v : α) :
    fupd m k v k = some v := by
  simp [fupd]

theorem fupd_other {α : Type _} (m : RoomKey → Option α) (k : RoomKey) (v : α)
    {x : RoomKey} (h : x ≠ k) : fupd m k v x = m x := by
  simp [fupd, h]

theorem relaxUpdate_none {graph : List (RoomKey × GraphNode)} {endNode : GraphNode}
    {cur : RoomKey} {st : AStarState} {nb : Neighbor} {t : ℝ}
    (hnone : alookup graph nb.key = none) :
    relaxUpdate graph endNode cur st nb t =
      ⟨st.openSet, st.closedSet, fupd st.cameFrom nb.key cur,
        fupd st.gScore nb.key t, st.fScore⟩ := by
  simp [relaxUpdate, hnone]

theorem relaxUpdate_some {graph : List (RoomKey × GraphNode)} {endNode : GraphNode}
    {cur : RoomKey} {st : AStarState} {nb : Neighbor} {t : ℝ} {nbNode : GraphNode}
    (hsome : alookup graph nb.key = some nbNode) :
    relaxUpdate graph endNode cur st nb t =
      ⟨if nb.key ∈ st.openSet then st.openSet else st.openSet ++ [nb.key],
        st.closedSet, fupd st.cameFrom nb.key cur, fupd st.gScore nb.key t,
        fupd st.fScore nb.key (t + distance nbNode.centroid endNode.centroid)⟩ := by
  simp [relaxUpdate, hsome]

theorem relaxOne_closed {graph : List (RoomKey × GraphNode)} {endNode : GraphNode}
    {cur : RoomKey} {curG : ℝ} {st : AStarState} {nb : Neighbor}
    (hc : nb.key ∈ st.closedSet) :
    relaxOne graph endNode cur curG st nb = st := by
  simp [relaxOne, hc]

theorem relaxOne_keep {graph : List (RoomKey × GraphNode)} {endNode : GraphNode}
    {cur : RoomKey} {curG : ℝ} {st : AStarState} {nb : Neighbor} {oldG : ℝ}
    (hc : nb.key ∉ st.closedSet) (holdg : st.gScore nb.key = some oldG)
    (hge : ¬ curG + nb.distance < oldG) :
    relaxOne graph endNode cur curG st nb = st := by
  simp [relaxOne, hc, holdg, hge]

theorem relaxOne_update_lt {graph : List (RoomKey × GraphNode)} {endNode : GraphNode}
    {cur : RoomKey} {curG : ℝ} {st : AStarState} {nb : Neighbor} {oldG : ℝ}
    (hc : nb.key ∉ st.closedSet) (holdg : st.gScore nb.key = some oldG)
    (hlt : curG + nb.distance < oldG) :
    relaxOne graph endNode cur curG st nb =
      relaxUpdate graph endNode cur st nb (curG + nb.distance) := by
  simp [relaxOne, hc, holdg, hlt]

theorem relaxOne_update_fresh {graph : List (RoomKey × GraphNode)} {endNode : GraphNode}
    {cur : RoomKey} {curG : ℝ} {st : AStarState} {nb : Neighbor}
    (hc : nb.key ∉ st.closedSet) (holdg : st.gScore nb.key = none) :
    relaxOne graph endNode cur curG st nb =
      relaxUpdate graph endNode cur st nb (curG + nb.distance) := by
  simp [relaxOne, hc, holdg]

/-- The invariant during relaxation of the edges out of the just-closed node
`cur`: the base invariant and closed-optimality hold, every closed node
other than `cur` has all its edges relaxed, and `cur` is closed with frozen
g-score `curG`. -/
structure RelaxInv (graph : List (RoomKey × GraphNode)) (startKey : RoomKey)
    (endNode : GraphNode) (cur : RoomKey) (curG : ℝ) (st : AStarState) : Prop where
  base : AInvBase graph startKey endNode st
  copt : ClosedOpt graph startKey st
  old_relaxed : ∀ u ∈ st.closedSet, u ≠ cur → ∀ gu, st.gScore u = some gu →
    ∀ nu, alookup graph u = some nu → ∀ nb ∈ nu.neighbors, RelaxedAt graph st gu nb
  cur_closed : cur ∈ st.closedSet
  cur_g : st.gScore cur = some curG

theorem cfChainL_avoid {graph : List (RoomKey × GraphNode)} {startKey : RoomKey}
    {cf : RoomKey → Option RoomKey} {k : RoomKey} {ks : List RoomKey} {c : ℝ}
    {closed : List RoomKey} {bad : RoomKey}
    (hch : CfChainL graph startKey cf k ks c)
    (hcfcl : ∀ x p, cf x = some p → p ∈ closed)
    (hknb : k ≠ bad) (hnc : bad ∉ closed) (hns : bad ≠ startKey) : bad ∉ ks := by
  intro hbad
  rcases cfChainL_nodes hch closed hcfcl bad hbad with h1 | h2 | h3
  · exact hknb h1.symm
  · exact hnc h2
  · exact hns h3

/-- The stored chains survive the relaxation update: every graph key with a
g-score in the updated maps has a `cameFrom` chain of cost at most that
g-score.  The updated key gets the chain of `cur` extended by the relaxed
edge; every other chain avoids the updated key and is unchanged. -/
theorem chain_after_update {graph : List (RoomKey × GraphNode)} {startKey : RoomKey}
    {endNode : GraphNode} {cur : RoomKey} {curG : ℝ} {st : AStarState}
    {curNode : GraphNode} {nb : Neighbor}
    (hRI : RelaxInv graph startKey endNode cur curG st)
    (hcurnode : alookup graph cur = some curNode) (hnb : nb ∈ curNode.neighbors)
    (hnc : nb.key ∉ st.closedSet) (hne_s : nb.key ≠ startKey) :
    ∀ k, (alookup graph k).isSome → ∀ gv,
      fupd st.gScore nb.key (curG + nb.distance) k = some gv →
      ∃ ks c, CfChainL graph startKey (fupd st.cameFrom nb.key cur) k ks c ∧
        c ≤ gv ∧ ks.Nodup := by
  have hne_cur : nb.key ≠ cur := fun he => hnc (he ▸ hRI.cur_closed)
  obtain ⟨ksc, cc, hchc, hccle, hndc⟩ :=
    hRI.base.chain cur (by rw [hcurnode]; rfl) curG hRI.cur_g
  have havoid_c : nb.key ∉ ksc :=
    cfChainL_avoid hchc hRI.base.cf_closed (Ne.symm hne_cur) hnc hne_s
  intro k hkg gv hgv
  by_cases hk : k = nb.key
  · subst hk
    rw [fupd_self] at hgv
    have hgveq : gv = curG + nb.distance := (Option.some_inj.mp hgv).symm
    refine ⟨ksc ++ [nb.key], cc + nb.distance, ?_, ?_, ?_⟩
    · refine CfChainL.step (fupd_self _ _ _) ⟨curNode, nb, hcurnode, hnb, rfl, rfl⟩ ?_
      refine cfChainL_congr hchc ?_
      intro x hx
      exact fupd_other _ _ _ (fun he => havoid_c (he ▸ hx))
    · rw [hgveq]
      exact add_le_add_right hccle _
    · rw [List.nodup_append]
      exact ⟨hndc, List.nodup_singleton _,
        fun a ha hb => havoid_c ((List.mem_singleton.mp hb) ▸ ha)⟩
  · rw [fupd_other _ _ _ hk] at hgv
    obtain ⟨ks, c, hch, hcle, hnd⟩ := hRI.base.chain k hkg gv hgv
    have havoid : nb.key ∉ ks :=
      cfChainL_avoid hch hRI.base.cf_closed hk hnc hne_s
    refine ⟨ks, c, cfChainL_congr hch ?_, hcle, hnd⟩
    intro x hx
    exact fupd_other _ _ _ (fun he => havoid (he ▸ hx))

/-- One improving relaxation preserves the relaxation-stage invariant; the
closed set is unchanged and g-scores only decrease. -/
theorem relaxUpdate_pres {graph : List (RoomKey × GraphNode)} {startKey : RoomKey}
    {endNode startNode : GraphNode} {cur : RoomKey} {curG : ℝ} {st : AStarState}
    {curNode : GraphNode} {nb : Neighbor}
    (hw : AdmissibleWeights graph) (hstart : alookup graph startKey = some startNode)
    (hRI : RelaxInv graph startKey endNode cur curG st)
    (hcurnode : alookup graph cur = some curNode) (hnb : nb ∈ curNode.neighbors)
    (hnc : nb.key ∉ st.closedSet)
    (himpr : st.gScore nb.key = none ∨
      ∃ oldG, st.gScore nb.key = some oldG ∧ curG + nb.distance < oldG) :
    RelaxInv graph startKey endNode cur curG
      (relaxUpdate graph endNode cur st nb (curG + nb.distance)) ∧
    (relaxUpdate graph endNode cur st nb (curG + nb.distance)).closedSet =
      st.closedSet ∧
    (∀ k v, st.gScore k = some v →
      ∃ v2, (relaxUpdate graph endNode cur st nb (curG + nb.distance)).gScore k =
        some v2 ∧ v2 ≤ v) := by
  have hcur_nonneg : 0 ≤ curG := by
    obtain ⟨ks, c, hch, hcle, -⟩ :=
      hRI.base.chain cur (by rw [hcurnode]; rfl) curG hRI.cur_g
    exact le_trans (reach_cost_nonneg hw (cfChainL_reach hch) hstart hcurnode) hcle
  have hne_s : nb.key ≠ startKey := by
    intro he
    have hwnn : 0 ≤ nb.distance := by
      have := hw (cur, curNode) (alookup_mem hcurnode) nb hnb startNode
        (by rw [he]; exact hstart)
      exact le_trans (distance_nonneg _ _) this
    rcases himpr with h1 | ⟨oldG, h2, h3⟩
    · rw [he, hRI.base.g_start] at h1; cases h1
    · rw [he, hRI.base.g_start] at h2
      have ho : oldG = 0 := (Option.some_inj.mp h2).symm
      rw [ho] at h3
      linarith
  have hne_cur : nb.key ≠ cur := fun he => hnc (he ▸ hRI.cur_closed)
  have hchain2 := chain_after_update hRI hcurnode hnb hnc hne_s
  have hgmono : ∀ k v, st.gScore k = some v →
      ∃ v2, fupd st.gScore nb.key (curG + nb.distance) k = some v2 ∧ v2 ≤ v := by
    intro k v hv
    by_cases hk : k = nb.key
    · subst hk
      refine ⟨curG + nb.distance, fupd_self _ _ _, ?_⟩
      rcases himpr with h1 | ⟨oldG, h2, h3⟩
      · rw [hv] at h1; cases h1
      · have hvo : v = oldG := by rw [hv] at h2; exact Option.some_inj.mp h2
        rw [hvo]
        exact le_of_lt h3
    · exact ⟨v, by rw [fupd_other _ _ _ hk]; exact hv, le_refl v⟩
  have hcf_closed2 : ∀ k p, fupd st.cameFrom nb.key cur k = some p →
      p ∈ st.closedSet := by
    intro k p hkp
    by_cases hk : k = nb.key
    · subst hk
      rw [fupd_self] at hkp
      rw [← Option.some_inj.mp hkp]
      exact hRI.cur_closed
    · rw [fupd_other _ _ _ hk] at hkp
      exact hRI.base.cf_closed k p hkp
  have hcf_start2 : fupd st.cameFrom nb.key cur startKey = none := by
    rw [fupd_other _ _ _ (Ne.symm hne_s)]
    exact hRI.base.cf_start
  have hg_start2 : fupd st.gScore nb.key (curG + nb.distance) startKey = some 0 := by
    rw [fupd_other _ _ _ (Ne.symm hne_s)]
    exact hRI.base.g_start
  have hclosed_g2 : ∀ k ∈ st.closedSet,
      ∃ gv, fupd st.gScore nb.key (curG + nb.distance) k = some gv := by
    intro k hk
    have hkne : k ≠ nb.key := fun he => hnc (he ▸ hk)
    rw [fupd_other _ _ _ hkne]
    exact hRI.base.closed_g k hk
  have hcopt2 : ∀ k ∈ st.closedSet, ∀ gv,
      fupd st.gScore nb.key (curG + nb.distance) k = some gv →
      ∀ c, Reach graph startKey k c → gv ≤ c := by
    intro k hk gv hgv c hr
    have hkne : k ≠ nb.key := fun he => hnc (he ▸ hk)
    rw [fupd_other _ _ _ hkne] at hgv
    exact hRI.copt k hk gv hgv c hr
  have hcurg2 : fupd st.gScore nb.key (curG + nb.distance) cur = some curG := by
    rw [fupd_other _ _ _ (Ne.symm hne_cur)]
    exact hRI.cur_g
  have hor2 : ∀ u ∈ st.closedSet, u ≠ cur → ∀ gu,
      fupd st.gScore nb.key (curG + nb.distance) u = some gu →
      ∀ nu, alookup graph u = some nu → ∀ nb2 ∈ nu.neighbors,
        (alookup graph nb2.key).isSome → nb2.key ∉ st.closedSet →
        ∃ gv, fupd st.gScore nb.key (curG + nb.distance) nb2.key = some gv ∧
          gv ≤ gu + nb2.distance := by
    intro u hu hune gu hgu nu hnu nb2 hnb2 hkg2 hncl2
    have hune2 : u ≠ nb.key := fun he => hnc (he ▸ hu)
    rw [fupd_other _ _ _ hune2] at hgu
    have hold := hRI.old_relaxed u hu hune gu hgu nu hnu nb2 hnb2 hkg2 hncl2
    obtain ⟨gvo, hgvo, hgvole⟩ := hold
    by_cases h2 : nb2.key = nb.key
    · refine ⟨curG + nb.distance, by rw [h2]; exact fupd_self _ _ _, ?_⟩
      rcases himpr with h1 | ⟨oldG, hog, hlt⟩
      · rw [h2, h1] at hgvo; cases hgvo
      · have : gvo = oldG := by rw [h2, hog] at hgvo; exact (Option.some_inj.mp hgvo).symm
        rw [this] at hgvole
        exact le_of_lt (lt_of_lt_of_le hlt hgvole)
    · exact ⟨gvo, by rw [fupd_other _ _ _ h2]; exact hgvo, hgvole⟩
  cases hlook : alookup graph nb.key with
  | none =>
      rw [relaxUpdate_none hlook]
      have hf_val2 : ∀ k fv, st.fScore k = some fv → ∃ gv nk,
          fupd st.gScore nb.key (curG + nb.distance) k = some gv ∧
          alookup graph k = some nk ∧
          fv = gv + distance nk.centroid endNode.centroid := by
        intro k fv hfv
        obtain ⟨gv, nk, hgv, hnk, hfe⟩ := hRI.base.f_val k fv hfv
        have hkne : k ≠ nb.key := fun he => by rw [he, hlook] at hnk; cases hnk
        exact ⟨gv, nk, by rw [fupd_other _ _ _ hkne]; exact hgv, hnk, hfe⟩
      have hg_mem2 : ∀ k, (alookup graph k).isSome → ∀ gv,
          fupd st.gScore nb.key (curG + nb.distance) k = some gv →
          k ∈ st.openSet ∨ k ∈ st.closedSet := by
        intro k hkg gv hgv
        have hkne : k ≠ nb.key := fun he => by rw [he, hlook] at hkg; simp at hkg
        rw [fupd_other _ _ _ hkne] at hgv
        exact hRI.base.g_mem k hkg gv hgv
      exact ⟨⟨⟨hRI.base.open_graph, hRI.base.open_nodup, hRI.base.open_closed,
        hRI.base.closed_graph, hclosed_g2, hg_start2, hcf_start2, hcf_closed2,
        hRI.base.open_f, hf_val2, hg_mem2, hchain2⟩, hcopt2, hor2,
        hRI.cur_closed, hcurg2⟩, rfl, hgmono⟩
  | some nbNode =>
      rw [relaxUpdate_some hlook]
      have hopen_sub : ∀ k ∈ st.openSet, k ∈ (if nb.key ∈ st.openSet then
          st.openSet else st.openSet ++ [nb.key]) := by
        intro k hk
        split
        · exact hk
        · exact List.mem_append.mpr (Or.inl hk)
      have hopen_mem : ∀ k, k ∈ (if nb.key ∈ st.openSet then st.openSet else
          st.openSet ++ [nb.key]) → k ∈ st.openSet ∨ k = nb.key := by
        intro k hk
        by_cases hmem : nb.key ∈ st.openSet
        · rw [if_pos hmem] at hk; exact Or.inl hk
        · rw [if_neg hmem] at hk
          rcases List.mem_append.mp hk with h1 | h2
          · exact Or.inl h1
          · exact Or.inr (List.mem_singleton.mp h2)
      have hnb_open : nb.key ∈ (if nb.key ∈ st.openSet then st.openSet else
          st.openSet ++ [nb.key]) := by
        by_cases hmem : nb.key ∈ st.openSet
        · rw [if_pos hmem]; exact hmem
        · rw [if_neg hmem]
          exact List.mem_append.mpr (Or.inr (List.mem_singleton.mpr rfl))
      have hopen_graph2 : ∀ k ∈ (if nb.key ∈ st.openSet then st.openSet else
          st.openSet ++ [nb.key]), (alookup graph k).isSome := by
        intro k hk
        rcases hopen_mem k hk with h1 | h2
        · exact hRI.base.open_graph k h1
        · rw [h2, hlook]; rfl
      have hopen_nodup2 : (if nb.key ∈ st.openSet then st.openSet else
          st.openSet ++ [nb.key]).Nodup := by
        by_cases hmem : nb.key ∈ st.openSet
        · rw [if_pos hmem]; exact hRI.base.open_nodup
        · rw [if_neg hmem, List.nodup_append]
          exact ⟨hRI.base.open_nodup, List.nodup_singleton _,
            fun a ha hb => hmem ((List.mem_singleton.mp hb) ▸ ha)⟩
      have hopen_closed2 : ∀ k ∈ (if nb.key ∈ st.openSet then st.openSet else
          st.openSet ++ [nb.key]), k ∉ st.closedSet := by
        intro k hk
        rcases hopen_mem k hk with h1 | h2
        · exact hRI.base.open_closed k h1
        · rw [h2]; exact hnc
      have hopen_f2 : ∀ k ∈ (if nb.key ∈ st.openSet then st.openSet else
          st.openSet ++ [nb.key]), ∃ fv, fupd st.fScore nb.key
          (curG + nb.distance + distance nbNode.centroid endNode.centroid) k =
            some fv := by
        intro k hk
        by_cases hkb : k = nb.key
        · subst hkb
          exact ⟨_, fupd_self _ _ _⟩
        · rcases hopen_mem k hk with h1 | h2
          · obtain ⟨fv, hfv⟩ := hRI.base.open_f k h1
            exact ⟨fv, by rw [fupd_other _ _ _ hkb]; exact hfv⟩
          · exact absurd h2 hkb
      have hf_val2 : ∀ k fv, fupd st.fScore nb.key
          (curG + nb.distance + distance nbNode.centroid endNode.centroid) k =
          some fv → ∃ gv nk,
          fupd st.gScore nb.key (curG + nb.distance) k = some gv ∧
          alookup graph k = some nk ∧
          fv = gv + distance nk.centroid endNode.centroid := by
        intro k fv hfv
        by_cases hkb : k = nb.key
        · subst hkb
          rw [fupd_self] at hfv
          exact ⟨curG + nb.distance, nbNode, fupd_self _ _ _, hlook,
            (Option.some_inj.mp hfv).symm⟩
        · rw [fupd_other _ _ _ hkb] at hfv
          obtain ⟨gv, nk, hgv, hnk, hfe⟩ := hRI.base.f_val k fv hfv
          exact ⟨gv, nk, by rw [fupd_other _ _ _ hkb]; exact hgv, hnk, hfe⟩
      have hg_mem2 : ∀ k, (alookup graph k).isSome → ∀ gv,
          fupd st.gScore nb.key (curG + nb.distance) k = some gv →
          k ∈ (if nb.key ∈ st.openSet then st.openSet else
            st.openSet ++ [nb.key]) ∨ k ∈ st.closedSet := by
        intro k hkg gv hgv
        by_cases hkb : k = nb.key
        · rw [hkb]; exact Or.inl hnb_open
        · rw [fupd_other _ _ _ hkb] at hgv
          rcases hRI.base.g_mem k hkg gv hgv with h1 | h2
          · exact Or.inl (hopen_sub k h1)
          · exact Or.inr h2
      exact ⟨⟨⟨hopen_graph2, hopen_nodup2, hopen_closed2,
        hRI.base.closed_graph, hclosed_g2, hg_start2, hcf_start2, hcf_closed2,
        hopen_f2, hf_val2, hg_mem2, hchain2⟩, hcopt2, hor2,
        hRI.cur_closed, hcurg2⟩, rfl, hgmono⟩

theorem relaxedAt_mono {graph : List (RoomKey × GraphNode)} {st st2 : AStarState}
    {gu : ℝ} {nb : Neighbor} (h : RelaxedAt graph st gu nb)
    (hcl : st2.closedSet = st.closedSet)
    (hg : ∀ k v, st.gScore k = some v → ∃ v2, st2.gScore k = some v2 ∧ v2 ≤ v) :
    RelaxedAt graph st2 gu nb := by
  intro hkg hncl
  rw [hcl] at hncl
  obtain ⟨gv, hgv, hle⟩ := h hkg hncl
  obtain ⟨v2, hv2, hv2le⟩ := hg _ _ hgv
  exact ⟨v2, hv2, le_trans hv2le hle⟩

/-- Processing one neighbor preserves the relaxation-stage invariant, keeps
the closed set, only lowers g-scores, and leaves the processed edge
relaxed. -/
theorem relaxOne_pres {graph : List (RoomKey × GraphNode)} {startKey : RoomKey}
    {endNode startNode : GraphNode} {cur : RoomKey} {curG : ℝ} {st : AStarState}
    {curNode : GraphNode} {nb : Neighbor}
    (hw : AdmissibleWeights graph) (hstart : alookup graph startKey = some startNode)
    (hRI : RelaxInv graph startKey endNode cur curG st)
    (hcurnode : alookup graph cur = some curNode) (hnb : nb ∈ curNode.neighbors) :
    RelaxInv graph startKey endNode cur curG (relaxOne graph endNode cur curG st nb) ∧
    (relaxOne graph endNode cur curG st nb).closedSet = st.closedSet ∧
    (∀ k v, st.gScore k = some v →
      ∃ v2, (relaxOne graph endNode cur curG st nb).gScore k = some v2 ∧ v2 ≤ v) ∧
    RelaxedAt graph (relaxOne graph endNode cur curG st nb) curG nb := by
  by_cases hc : nb.key ∈ st.closedSet
  · rw [relaxOne_closed hc]
    refine ⟨hRI, rfl, fun k v hv => ⟨v, hv, le_refl v⟩, ?_⟩
    intro _ hncl
    exact absurd hc hncl
  · cases holdg : st.gScore nb.key with
    | some oldG =>
        by_cases hlt : curG + nb.distance < oldG
        · rw [relaxOne_update_lt hc holdg hlt]
          obtain ⟨hRI2, hcl2, hg2⟩ := relaxUpdate_pres hw hstart hRI hcurnode hnb hc
            (Or.inr ⟨oldG, holdg, hlt⟩)
          refine ⟨hRI2, hcl2, hg2, ?_⟩
          intro hkg hncl
          refine ⟨curG + nb.distance, ?_, le_refl _⟩
          cases hlook : alookup graph nb.key with
          | none => rw [relaxUpdate_none hlook]; exact fupd_self _ _ _
          | some nbNode => rw [relaxUpdate_some hlook]; exact fupd_self _ _ _
        · rw [relaxOne_keep hc holdg hlt]
          refine ⟨hRI, rfl, fun k v hv => ⟨v, hv, le_refl v⟩, ?_⟩
          intro hkg hncl
          exact ⟨oldG, holdg, not_lt.mp hlt⟩
    | none =>
        rw [relaxOne_update_fresh hc holdg]
        obtain ⟨hRI2, hcl2, hg2⟩ := relaxUpdate_pres hw hstart hRI hcurnode hnb hc
          (Or.inl holdg)
        refine ⟨hRI2, hcl2, hg2, ?_⟩
        intro hkg hncl
        refine ⟨curG + nb.distance, ?_, le_refl _⟩
        cases hlook : alookup graph nb.key with
        | none => rw [relaxUpdate_none hlook]; exact fupd_self _ _ _
        | some nbNode => rw [relaxUpdate_some hlook]; exact fupd_self _ _ _

/-- Folding the relaxation over a sublist of the current node's adjacency
list preserves the invariant and leaves every processed edge relaxed. -/
theorem relax_fold_pres {graph : List (RoomKey × GraphNode)} {startKey : RoomKey}
    {endNode startNode : GraphNode} {cur : RoomKey} {curG : ℝ}
    {curNode : GraphNode}
    (hw : AdmissibleWeights graph) (hstart : alookup graph startKey = some startNode)
    (hcurnode : alookup graph cur = some curNode) :
    ∀ (nbs : List Neighbor) (st : AStarState),
      (∀ nb ∈ nbs, nb ∈ curNode.neighbors) →
      RelaxInv graph startKey endNode cur curG st →
      RelaxInv graph startKey endNode cur curG
        (nbs.foldl (fun s nb => relaxOne graph endNode cur curG s nb) st) ∧
      (nbs.foldl (fun s nb => relaxOne graph endNode cur curG s nb) st).closedSet =
        st.closedSet ∧
      (∀ k v, st.gScore k = some v → ∃ v2,
        (nbs.foldl (fun s nb => relaxOne graph endNode cur curG s nb) st).gScore k =
          some v2 ∧ v2 ≤ v) ∧
      (∀ nb ∈ nbs, RelaxedAt graph
        (nbs.foldl (fun s nb => relaxOne graph endNode cur curG s nb) st) curG nb) := by
  intro nbs
  induction nbs with
  | nil =>
      intro st hmem hRI
      exact ⟨hRI, rfl, fun k v hv => ⟨v, hv, le_refl v⟩, by simp⟩
  | cons nb t ih =>
      intro st hmem hRI
      simp only [List.foldl_cons]
      obtain ⟨hRI1, hcl1, hg1, hra1⟩ :=
        relaxOne_pres hw hstart hRI hcurnode (hmem nb (List.mem_cons_self _ _))
      obtain ⟨hRIF, hclF, hgF, hraF⟩ :=
        ih (relaxOne graph endNode cur curG st nb)
          (fun nb2 h2 => hmem nb2 (List.mem_cons_of_mem _ h2)) hRI1
      refine ⟨hRIF, by rw [hclF, hcl1], ?_, ?_⟩
      · intro k v hv
        obtain ⟨v1, hv1, hle1⟩ := hg1 k v hv
        obtain ⟨v2, hv2, hle2⟩ := hgF k v1 hv1
        exact ⟨v2, hv2, le_trans hle2 hle1⟩
      · intro nb2 h2
        rcases List.mem_cons.mp h2 with he | ht
        · exact relaxedAt_mono (he.symm ▸ hra1) hclF hgF
        · exact hraF nb2 ht

/-- Popping the chosen node establishes the relaxation-stage invariant on
the state with the node moved from the open to the closed set. -/
theorem pop_stage {graph : List (RoomKey × GraphNode)} {startKey : RoomKey}
    {endNode startNode : GraphNode} {st : AStarState}
    (hw : AdmissibleWeights graph) (hstart : alookup graph startKey = some startNode)
    (hH : 0 < distance startNode.centroid endNode.centroid)
    (hB : AInvBase graph startKey endNode st) (hCO : ClosedOpt graph startKey st)
    (hCR : ClosedRelaxed graph st)
    {cur : RoomKey} (hpick : pickCurrent st.fScore st.openSet = some cur)
    {gcur : ℝ} (hgcur : st.gScore cur = some gcur) :
    RelaxInv graph startKey endNode cur gcur
      ⟨st.openSet.filter (fun k => k ≠ cur), st.closedSet ++ [cur],
        st.cameFrom, st.gScore, st.fScore⟩ := by
  have hcurop : cur ∈ st.openSet := (pickCurrent_spec hpick).1
  have hpopt := pop_optimal hw hstart hH hB hCO hCR hpick hgcur
  have hfmem : ∀ k, k ∈ st.openSet.filter (fun k => k ≠ cur) ↔
      (k ∈ st.openSet ∧ k ≠ cur) := by
    intro k
    simp [List.mem_filter]
  refine ⟨⟨?_, ?_, ?_, ?_, ?_, hB.g_start, hB.cf_start, ?_, ?_, hB.f_val, ?_,
    hB.chain⟩, ?_, ?_, ?_, hgcur⟩
  · intro k hk
    exact hB.open_graph k ((hfmem k).mp hk).1
  · exact hB.open_nodup.filter _
  · intro k hk hmem
    obtain ⟨hko, hkne⟩ := (hfmem k).mp hk
    rcases List.mem_append.mp hmem with h1 | h2
    · exact hB.open_closed k hko h1
    · exact hkne (List.mem_singleton.mp h2)
  · intro k hk
    rcases List.mem_append.mp hk with h1 | h2
    · exact hB.closed_graph k h1
    · rw [List.mem_singleton.mp h2]
      exact hB.open_graph cur hcurop
  · intro k hk
    rcases List.mem_append.mp hk with h1 | h2
    · exact hB.closed_g k h1
    · rw [List.mem_singleton.mp h2]
      exact ⟨gcur, hgcur⟩
  · intro k p h
    exact List.mem_append.mpr (Or.inl (hB.cf_closed k p h))
  · intro k hk
    exact hB.open_f k ((hfmem k).mp hk).1
  · intro k hkg gv hgv
    rcases hB.g_mem k hkg gv hgv with ho | hc
    · by_cases hkc : k = cur
      · exact Or.inr (List.mem_append.mpr (Or.inr (List.mem_singleton.mpr hkc)))
      · exact Or.inl ((hfmem k).mpr ⟨ho, hkc⟩)
    · exact Or.inr (List.mem_append.mpr (Or.inl hc))
  · intro k hk gv hgv c hr
    rcases List.mem_append.mp hk with h1 | h2
    · exact hCO k h1 gv hgv c hr
    · have hkc : k = cur := List.mem_singleton.mp h2
      rw [hkc] at hgv
      rw [hgcur] at hgv
      rw [← Option.some_inj.mp hgv]
      exact hpopt c (hkc ▸ hr)
  · intro u hu hune gu hgu nu hnu nb hnb
    have hu2 : u ∈ st.closedSet := by
      rcases List.mem_append.mp hu with h1 | h2
      · exact h1
      · exact absurd (List.mem_singleton.mp h2) hune
    have hra := hCR u hu2 gu hgu nu hnu nb hnb
    intro hkg hncl
    have hncl2 : nb.key ∉ st.closedSet :=
      fun hm => hncl (List.mem_append.mpr (Or.inl hm))
    exact hra hkg hncl2
  · exact List.mem_append.mpr (Or.inr (List.mem_singleton.mpr rfl))

/-- One `.next` step of the A* loop preserves the loop invariant. -/
theorem step_preserves {graph : List (RoomKey × GraphNode)}
    {startKey endKey : RoomKey} {endNode startNode : GraphNode} {st st2 : AStarState}
    (hw : AdmissibleWeights graph) (hstart : alookup graph startKey = some startNode)
    (hH : 0 < distance startNode.centroid endNode.centroid)
    (hB : AInvBase graph startKey endNode st) (hCO : ClosedOpt graph startKey st)
    (hCR : ClosedRelaxed graph st)
    (hstep : aStarStep graph endKey endNode st = .next st2) :
    AInvBase graph startKey endNode st2 ∧ ClosedOpt graph startKey st2 ∧
      ClosedRelaxed graph st2 := by
  by_cases hopen : st.openSet = []
  · rw [aStarStep, if_pos hopen] at hstep
    cases hstep
  · rw [aStarStep, if_neg hopen] at hstep
    cases hpick : pickCurrent st.fScore st.openSet with
    | none =>
        rw [hpick] at hstep
        cases hstep
    | some current =>
        rw [hpick] at hstep
        dsimp only at hstep
        by_cases hce : current = endKey
        · rw [if_pos hce] at hstep
          cases hstep
        · rw [if_neg hce] at hstep
          obtain ⟨fv, hfv⟩ := hB.open_f current (pickCurrent_spec hpick).1
          obtain ⟨gcur, ncur, hgcur, hncur, -⟩ := hB.f_val current fv hfv
          cases hlook : alookup graph current with
          | none =>
              rw [hlook] at hncur
              cases hncur
          | some currentNode =>
              rw [hlook] at hstep
              have hst1g : (⟨st.openSet.filter (fun k => k ≠ current),
                  st.closedSet ++ [current], st.cameFrom, st.gScore,
                  st.fScore⟩ : AStarState).gScore current = some gcur := hgcur
              rw [hst1g] at hstep
              have hst2 : st2 = currentNode.neighbors.foldl
                  (fun s nb => relaxOne graph endNode current gcur s nb)
                  ⟨st.openSet.filter (fun k => k ≠ current),
                    st.closedSet ++ [current], st.cameFrom, st.gScore,
                    st.fScore⟩ := by
                cases hstep
                rfl
              subst hst2
              have hRI1 := pop_stage hw hstart hH hB hCO hCR hpick hgcur
              obtain ⟨hRIF, -, -, hraF⟩ := relax_fold_pres hw hstart hlook
                currentNode.neighbors _ (fun nb h => h) hRI1
              refine ⟨hRIF.base, hRIF.copt, ?_⟩
              intro u hu gu hgu nu hnu nb hnb
              by_cases huc : u = current
              · subst huc
                have hgueq : gu = gcur := by
                  rw [hRIF.cur_g] at hgu
                  exact (Option.some_inj.mp hgu).symm
                have hnueq : nu = currentNode := by
                  rw [hlook] at hnu
                  exact (Option.some_inj.mp hnu).symm
                rw [hgueq]
                exact hraF nb (hnueq ▸ hnb)
              · exact hRIF.old_relaxed u hu huc gu hgu nu hnu nb hnb

theorem aStarStep_found_inv {graph : List (RoomKey × GraphNode)}
    {endKey : RoomKey} {endNode : GraphNode} {st : AStarState} {q : List RoomKey}
    (h : aStarStep graph endKey endNode st = .found q) :
    pickCurrent st.fScore st.openSet = some endKey ∧
      q = reconstruct st.cameFrom (graph.length + 1) endKey := by
  by_cases hopen : st.openSet = []
  · rw [aStarStep, if_pos hopen] at h
    cases h
  · rw [aStarStep, if_neg hopen] at h
    cases hpick : pickCurrent st.fScore st.openSet with
    | none =>
        rw [hpick] at h
        cases h
    | some current =>
        rw [hpick] at h
        dsimp only at h
        by_cases hce : current = endKey
        · rw [if_pos hce] at h
          subst hce
          cases h
          exact ⟨rfl, rfl⟩
        · rw [if_neg hce] at h
          cases hlook : alookup graph current with
          | none =>
              rw [hlook] at h
              cases h
          | some cn =>
              rw [hlook] at h
              dsimp only at h
              cases hg : st.gScore current with
              | none =>
                  rw [hg] at h
                  cases h
              | some cg =>
                  rw [hg] at h
                  cases h

/-- Whatever state the A* loop is started from, if the invariant holds and
the loop returns a path, that path runs from the start key to the end key
and its total edge weight is no larger than that of any path between them. -/
theorem aStarLoop_opt {graph : List (RoomKey × GraphNode)}
    {startKey endKey : RoomKey} {endNode startNode : GraphNode}
    (hw : AdmissibleWeights graph)
    (hstart : alookup graph startKey = some startNode)
    (hend : alookup graph endKey = some endNode)
    (hH : 0 < distance startNode.centroid endNode.centroid) :
    ∀ (fuel : ℕ) (st : AStarState) (p : List RoomKey),
      AInvBase graph startKey endNode st → ClosedOpt graph startKey st →
      ClosedRelaxed graph st →
      aStarLoop graph endKey endNode fuel st = some p →
      p.head? = some startKey ∧ p.getLast? = some endKey ∧
        ∃ c, KeyListCost graph p c ∧
          ∀ c2, Reach graph startKey endKey c2 → c ≤ c2 := by
  intro fuel
  induction fuel with
  | zero =>
      intro st p hB hCO hCR hloop
      simp [aStarLoop] at hloop
  | succ n ih =>
      intro st p hB hCO hCR hloop
      rw [aStarLoop] at hloop
      cases hstep : aStarStep graph endKey endNode st with
      | nopath =>
          rw [hstep] at hloop
          cases hloop
      | next stN =>
          rw [hstep] at hloop
          dsimp only at hloop
          obtain ⟨hB2, hCO2, hCR2⟩ := step_preserves hw hstart hH hB hCO hCR hstep
          exact ih stN p hB2 hCO2 hCR2 hloop
      | found q =>
          rw [hstep] at hloop
          dsimp only at hloop
          have hpq : q = p := Option.some_inj.mp hloop
          obtain ⟨hpick, hq⟩ := aStarStep_found_inv hstep
          obtain ⟨fv, hfv⟩ := hB.open_f endKey (pickCurrent_spec hpick).1
          obtain ⟨ge, nk, hge, -, -⟩ := hB.f_val endKey fv hfv
          have hpoptimal := pop_optimal hw hstart hH hB hCO hCR hpick hge
          obtain ⟨ks, c, hch, hcle, hnd⟩ :=
            hB.chain endKey (by rw [hend]; rfl) ge hge
          have hsub : ∀ x ∈ ks, x ∈ graph.map Prod.fst := by
            intro x hx
            rcases cfChainL_nodes hch st.closedSet hB.cf_closed x hx with h1 | h2 | h3
            · rw [h1]
              exact List.mem_map.mpr ⟨(endKey, endNode), alookup_mem hend, rfl⟩
            · obtain ⟨nx, hnx⟩ :=
                Option.isSome_iff_exists.mp (hB.closed_graph x h2)
              exact List.mem_map.mpr ⟨(x, nx), alookup_mem hnx, rfl⟩
            · rw [h3]
              exact List.mem_map.mpr ⟨(startKey, startNode), alookup_mem hstart, rfl⟩
          have hlen : ks.length ≤ graph.length := by
            have hsp := (hnd.subperm hsub).length_le
            rw [List.length_map] at hsp
            exact hsp
          have hrec : reconstruct st.cameFrom (graph.length + 1) endKey = ks :=
            reconstruct_eq_chain hch hB.cf_start (graph.length + 1) (by omega)
          have hpks : p = ks := by rw [← hpq, hq, hrec]
          subst hpks
          exact ⟨(cfChainL_ne_nil_head hch).2, cfChainL_last hch, c,
            cfChainL_cost hch, fun c2 hr2 => le_trans hcle (hpoptimal c2 hr2)⟩

/-- The invariant holds on the initial A* state. -/
theorem init_inv {graph : List (RoomKey × GraphNode)} {startKey : RoomKey}
    {endNode startNode : GraphNode}
    (hs : alookup graph startKey = some startNode) :
    AInvBase graph startKey endNode
      ⟨[startKey], [], fun _ => none, fupd (fun _ => none) startKey 0,
        fupd (fun _ => none) startKey
          (distance startNode.centroid endNode.centroid)⟩ ∧
    ClosedOpt graph startKey
      ⟨[startKey], [], fun _ => none, fupd (fun _ => none) startKey 0,
        fupd (fun _ => none) startKey
          (distance startNode.centroid endNode.centroid)⟩ ∧
    ClosedRelaxed graph
      ⟨[startKey], [], fun _ => none, fupd (fun _ => none) startKey 0,
        fupd (fun _ => none) startKey
          (distance startNode.centroid endNode.centroid)⟩ := by
  refine ⟨⟨?_, List.nodup_singleton _, ?_, ?_, ?_, ?_, rfl, ?_, ?_,
    ?_, ?_, ?_⟩, ?_, ?_⟩
  · intro k hk
    rw [List.mem_singleton.mp hk, hs]
    rfl
  · intro k hk
    simp
  · intro k hk
    simp at hk
  · intro k hk
    simp at hk
  · dsimp only
    exact fupd_self _ _ _
  · intro k p h
    cases h
  · intro k hk
    dsimp only
    rw [List.mem_singleton.mp hk]
    exact ⟨_, fupd_self _ _ _⟩
  · intro k fv hfv
    dsimp only at hfv ⊢
    by_cases hk : k = startKey
    · subst hk
      rw [fupd_self] at hfv
      have hfe : distance startNode.centroid endNode.centroid = fv :=
        Option.some_inj.mp hfv
      exact ⟨0, startNode, fupd_self _ _ _, hs, by rw [← hfe, zero_add]⟩
    · rw [fupd_other _ _ _ hk] at hfv
      cases hfv
  · intro k hkg gv hgv
    dsimp only at hgv ⊢
    by_cases hk : k = startKey
    · rw [hk]
      exact Or.inl (List.mem_singleton.mpr rfl)
    · rw [fupd_other _ _ _ hk] at hgv
      cases hgv
  · intro k hkg gv hgv
    dsimp only at hgv ⊢
    by_cases hk : k = startKey
    · subst hk
      rw [fupd_self] at hgv
      have hgv0 : (0 : ℝ) = gv := Option.some_inj.mp hgv
      exact ⟨[k], 0, CfChainL.base, le_of_eq hgv0, List.nodup_singleton _⟩
    · rw [fupd_other _ _ _ hk] at hgv
      cases hgv
  · intro k hk
    simp at hk
  · intro u hu
    simp at hu

/-- Claim C1: whenever every edge weight of the graph is at least the
Euclidean centroid distance between its endpoints (the heuristic is then
consistent), a path returned by `aStar` runs from the start key to the end
key and its total edge weight does not exceed that of any path from the
start key to the end key in the graph. -/
theorem aStar_never_suboptimal (graph : List (RoomKey × GraphNode))
    (startKey endKey : RoomKey) (p : List RoomKey)
    (hw : AdmissibleWeights graph)
    (hrun : aStar graph startKey endKey = some p) :
    p.head? = some startKey ∧ p.getLast? = some endKey ∧
      ∃ c, KeyListCost graph p c ∧
        ∀ c2, Reach graph startKey endKey c2 → c ≤ c2 := by
  cases hs : alookup graph startKey with
  | none =>
      rw [aStar, hs] at hrun
      cases hrun
  | some startNode =>
      cases he : alookup graph endKey with
      | none =>
          rw [aStar, hs, he] at hrun
          cases hrun
      | some endNode =>
          rw [aStar, hs, he] at hrun
          dsimp only at hrun
          by_cases hH0 : distance startNode.centroid endNode.centroid = 0
          · have hfz : (fupd (fun _ => none) startKey
                (distance startNode.centroid endNode.centroid)) startKey =
                some 0 := by
              rw [fupd_self, hH0]
            have hg0 : getF (fupd (fun _ => none) startKey
                (distance startNode.centroid endNode.centroid)) startKey =
                none := by
              simp [getF, hfz]
            have hpick0 : pickCurrent (fupd (fun _ => none) startKey
                (distance startNode.centroid endNode.centroid)) [startKey] =
                none := by
              rw [pickCurrent_eq_foldl, List.foldl_cons, pickStep_none _ hg0,
                List.foldl_nil]
            have hstep0 : aStarStep graph endKey endNode
                ⟨[startKey], [], fun _ => none, fupd (fun _ => none) startKey 0,
                  fupd (fun _ => none) startKey
                    (distance startNode.centroid endNode.centroid)⟩ =
                .nopath := by
              rw [aStarStep]
              dsimp only
              rw [if_neg (by simp : ¬([startKey] : List RoomKey) = []), hpick0]
            have hloop0 : aStarLoop graph endKey endNode (graph.length + 1)
                ⟨[startKey], [], fun _ => none, fupd (fun _ => none) startKey 0,
                  fupd (fun _ => none) startKey
                    (distance startNode.centroid endNode.centroid)⟩ =
                none := by
              rw [aStarLoop, hstep0]
            rw [hloop0] at hrun
            cases hrun
          · have hHpos : 0 < distance startNode.centroid endNode.centroid :=
              lt_of_le_of_ne (distance_nonneg _ _) (Ne.symm hH0)
            obtain ⟨hB0, hCO0, hCR0⟩ := @init_inv graph startKey endNode startNode hs
            exact aStarLoop_opt hw hs he hHpos (graph.length + 1) _ p
              hB0 hCO0 hCR0 hrun

/-! A concrete two-node graph on which the A* run is evaluated in full. -/

def c1A : RoomKey := ("a", 0)

def c1B : RoomKey := ("b", 0)

def c1RoomA : RoomGroup := ⟨"a", 0, [], ((0 : ℝ), (0 : ℝ))⟩

def c1RoomB : RoomGroup := ⟨"b", 0, [], ((1 : ℝ), (0 : ℝ))⟩

def c1NB : Neighbor := ⟨c1B, "b", 0, 1, false⟩

def c1NodeA : GraphNode := ⟨c1RoomA, [c1NB], ((0 : ℝ), (0 : ℝ)), false⟩

def c1NodeB : GraphNode := ⟨c1RoomB, [], ((1 : ℝ), (0 : ℝ)), false⟩

def c1Graph : List (RoomKey × GraphNode) := [(c1A, c1NodeA), (c1B, c1NodeB)]

theorem c1_dist1 : distance c1NodeA.centroid c1NodeB.centroid = 1 := by
  show distance ((0 : ℝ), (0 : ℝ)) ((1 : ℝ), (0 : ℝ)) = 1
  unfold distance
  norm_num

theorem c1_lookA : alookup c1Graph c1A = some c1NodeA := by
  simp [c1Graph, alookup]

theorem c1_lookB : alookup c1Graph c1B = some c1NodeB := by
  have hne : c1B ≠ c1A := by decide
  simp [c1Graph, alookup, hne]

theorem c1_step1 : aStarStep c1Graph c1B c1NodeB
    ⟨[c1A], [], fun _ => none, fupd (fun _ => none) c1A 0,
      fupd (fun _ => none) c1A 1⟩ =
    .next ⟨[c1B], [] ++ [c1A], fupd (fun _ => none) c1B c1A,
      fupd (fupd (fun _ => none) c1A 0) c1B (0 + c1NB.distance),
      fupd (fupd (fun _ => none) c1A 1) c1B
        (0 + c1NB.distance + distance c1NodeB.centroid c1NodeB.centroid)⟩ := by
  have hneAB : ¬(c1A = c1B) := by decide
  have hg1 : getF (fupd (fun _ => none) c1A (1 : ℝ)) c1A = some 1 :=
    getF_of_pos (fupd_self _ _ _) one_pos
  have hpick1 : pickCurrent (fupd (fun _ => none) c1A (1 : ℝ)) [c1A] =
      some c1A := by
    rw [pickCurrent_eq_foldl, List.foldl_cons, pickStep_fresh _ hg1 rfl,
      List.foldl_nil]
  have hrelax : relaxOne c1Graph c1NodeB c1A 0
      ⟨[c1A].filter (fun k => k ≠ c1A), [] ++ [c1A], fun _ => none,
        fupd (fun _ => none) c1A 0, fupd (fun _ => none) c1A 1⟩ c1NB =
      ⟨[c1B], [] ++ [c1A], fupd (fun _ => none) c1B c1A,
        fupd (fupd (fun _ => none) c1A 0) c1B (0 + c1NB.distance),
        fupd (fupd (fun _ => none) c1A 1) c1B
          (0 + c1NB.distance + distance c1NodeB.centroid c1NodeB.centroid)⟩ := by
    unfold relaxOne
    dsimp only
    rw [if_neg (by decide : ¬(c1NB.key ∈ ([] ++ [c1A] : List RoomKey)))]
    rw [show (fupd (fun _ => none) c1A (0 : ℝ)) c1NB.key = none from by
      rw [fupd_other _ _ _ (by decide : c1NB.key ≠ c1A)]]
    dsimp only
    rw [relaxUpdate_some (show alookup c1Graph c1NB.key = some c1NodeB from c1_lookB)]
    rw [if_neg (by decide :
      ¬(c1NB.key ∈ ([c1A].filter (fun k => k ≠ c1A) : List RoomKey)))]
    rfl
  rw [aStarStep]
  dsimp only
  rw [if_neg (by simp : ¬([c1A] : List RoomKey) = [])]
  rw [hpick1]
  dsimp only
  rw [if_neg hneAB]
  rw [c1_lookA]
  dsimp only
  rw [show (fupd (fun _ => none) c1A (0 : ℝ)) c1A = some 0 from fupd_self _ _ _]
  dsimp only
  rw [show c1NodeA.neighbors = [c1NB] from rfl]
  simp only [List.foldl_cons, List.foldl_nil]
  rw [hrelax]

theorem c1_step2 : aStarStep c1Graph c1B c1NodeB
    ⟨[c1B], [] ++ [c1A], fupd (fun _ => none) c1B c1A,
      fupd (fupd (fun _ => none) c1A 0) c1B (0 + c1NB.distance),
      fupd (fupd (fun _ => none) c1A 1) c1B
        (0 + c1NB.distance + distance c1NodeB.centroid c1NodeB.centroid)⟩ =
    .found [c1A, c1B] := by
  have hneBA : c1A ≠ c1B := by decide
  have hv : (0 : ℝ) + c1NB.distance + distance c1NodeB.centroid c1NodeB.centroid
      = 1 := by
    rw [distance_self]
    show (0 : ℝ) + 1 + 0 = 1
    norm_num
  have hfB : (fupd (fupd (fun _ => none) c1A 1) c1B
      (0 + c1NB.distance + distance c1NodeB.centroid c1NodeB.centroid)) c1B =
      some (0 + c1NB.distance + distance c1NodeB.centroid c1NodeB.centroid) :=
    fupd_self _ _ _
  have hg2 : getF (fupd (fupd (fun _ => none) c1A 1) c1B
      (0 + c1NB.distance + distance c1NodeB.centroid c1NodeB.centroid)) c1B =
      some (0 + c1NB.distance + distance c1NodeB.centroid c1NodeB.centroid) :=
    getF_of_pos hfB (by rw [hv]; exact one_pos)
  have hpick2 : pickCurrent (fupd (fupd (fun _ => none) c1A 1) c1B
      (0 + c1NB.distance + distance c1NodeB.centroid c1NodeB.centroid)) [c1B] =
      some c1B := by
    rw [pickCurrent_eq_foldl, List.foldl_cons, pickStep_fresh _ hg2 rfl,
      List.foldl_nil]
  have hrec : reconstruct (fupd (fun _ => none) c1B c1A) (c1Graph.length + 1)
      c1B = [c1A, c1B] := by
    rw [show c1Graph.length + 1 = 2 + 1 from rfl]
    rw [reconstruct]
    rw [show (fupd (fun _ => none) c1B c1A) c1B = some c1A from fupd_self _ _ _]
    dsimp only
    rw [show (2 : ℕ) = 1 + 1 from rfl]
    rw [reconstruct]
    rw [show (fupd (fun _ => none) c1B c1A) c1A = none from by
      rw [fupd_other _ _ _ hneBA]]
    dsimp only
    rfl
  rw [aStarStep]
  dsimp only
  rw [if_neg (by simp : ¬([c1B] : List RoomKey) = [])]
  rw [hpick2]
  dsimp only
  rw [if_pos rfl, hrec]

theorem c1_run : aStar c1Graph c1A c1B = some [c1A, c1B] := by
  rw [aStar, c1_lookA, c1_lookB]
  dsimp only
  rw [c1_dist1]
  rw [show c1Graph.length + 1 = 1 + 1 + 1 from rfl]
  rw [aStarLoop, c1_step1]
  dsimp only
  rw [aStarLoop, c1_step2]

theorem c1_weights : AdmissibleWeights c1Graph := by
  intro q hq nb hnb tn htn
  rcases List.mem_cons.mp hq with rfl | hq2
  · have hnb2 : nb = c1NB := by
      rw [show (c1A, c1NodeA).2.neighbors = [c1NB] from rfl] at hnb
      exact List.mem_singleton.mp hnb
    subst hnb2
    rw [show c1NB.key = c1B from rfl, c1_lookB] at htn
    have htn2 : tn = c1NodeB := (Option.some_inj.mp htn).symm
    subst htn2
    rw [show (c1A, c1NodeA).2.centroid = c1NodeA.centroid from rfl, c1_dist1]
    show (1 : ℝ) ≤ c1NB.distance
    norm_num [c1NB]
  · rcases List.mem_cons.mp hq2 with rfl | hq3
    · rw [show (c1B, c1NodeB).2.neighbors = ([] : List Neighbor) from rfl] at hnb
      cases hnb
    · cases hq3

/-- Claim C1, witness: on the two-node graph with a single unit-weight edge
(weight 1 ≥ centroid distance 1), `aStar` returns the two-node path and the
theorem yields its optimality. -/
theorem aStar_never_suboptimal_witness :
    AdmissibleWeights c1Graph ∧ aStar c1Graph c1A c1B = some [c1A, c1B] ∧
    ([c1A, c1B].head? = some c1A ∧ [c1A, c1B].getLast? = some c1B ∧
      ∃ c, KeyListCost c1Graph [c1A, c1B] c ∧
        ∀ c2, Reach c1Graph c1A c1B c2 → c ≤ c2) :=
  ⟨c1_weights, c1_run,
    aStar_never_suboptimal c1Graph c1A c1B [c1A, c1B] c1_weights c1_run⟩

end

end IndoorNav
